import Mathlib

/-!
Verification of the BMS versioned-state engine (crates bms-core and bms-api).

This development shallowly embeds the core of the system:
canonical JSON serialization (canonical.rs), coordinate derivation
(coordinate.rs), RFC 6902 delta computation and application (delta.rs, via
the json-patch crate the source uses), the SHA3-256 Merkle chain (merkle.rs),
snapshot management (snapshot.rs) and the HTTP-facing orchestrator
(handlers.rs).  Machine integers are modelled as Nat with explicit masking,
hashes as the lowercase-hex strings the source carries around, and JSON
values as a tree with association-list objects (serde_json preserves unique
keys; permutation of stored key order is representable, which matters for the
canonicalization claims).  JSON numbers are embedded as integers: no claim
under verification depends on float formatting, and serde_json never
re-normalizes numbers so integer payloads pass through verbatim.
-/

namespace BMS

/-- JSON value universe (serde_json::Value).  Objects are association lists
of unique string keys; numbers are embedded as integers (see module header). -/
inductive Json where
  | null : Json
  | bool (b : Bool) : Json
  | num (n : Int) : Json
  | str (s : String) : Json
  | arr (elems : List Json) : Json
  | obj (fields : List (String × Json)) : Json

/-- Structural equality on values (serde_json Value equality on this universe). -/
def Json.beq : Json → Json → Bool
  | .null, .null => true
  | .bool a, .bool b => a == b
  | .num a, .num b => a == b
  | .str a, .str b => a == b
  | .arr xs, .arr ys => beqList xs ys
  | .obj xs, .obj ys => beqFields xs ys
  | _, _ => false
where
  beqList : List Json → List Json → Bool
    | [], [] => true
    | a :: as, b :: bs => Json.beq a b && beqList as bs
    | _, _ => false
  beqFields : List (String × Json) → List (String × Json) → Bool
    | [], [] => true
    | (k, a) :: as, (l, b) :: bs => k == l && Json.beq a b && beqFields as bs
    | _, _ => false

/-- Node count, used to derive the induction principle for the nested type. -/
def Json.size : Json → Nat
  | .null | .bool _ | .num _ | .str _ => 1
  | .arr xs => 1 + sizeList xs
  | .obj fs => 1 + sizeFields fs
where
  sizeList : List Json → Nat
    | [] => 0
    | x :: xs => Json.size x + sizeList xs
  sizeFields : List (String × Json) → Nat
    | [] => 0
    | (_, v) :: fs => Json.size v + sizeFields fs

theorem Json.size_pos : ∀ v : Json, 0 < v.size := by
  intro v
  cases v <;> simp only [Json.size] <;> omega

theorem Json.size_lt_of_mem_arr {x : Json} {xs : List Json} (h : x ∈ xs) :
    x.size < (Json.arr xs).size := by
  have hle : ∀ ys : List Json, x ∈ ys → x.size ≤ Json.size.sizeList ys := by
    intro ys hy
    induction ys with
    | nil => cases hy
    | cons y ys ih =>
      simp only [Json.size.sizeList]
      rcases List.mem_cons.mp hy with rfl | hm
      · omega
      · have := ih hm; omega
  have := hle xs h
  simp only [Json.size]
  omega

theorem Json.size_lt_of_mem_obj {kv : String × Json} {fs : List (String × Json)}
    (h : kv ∈ fs) : kv.2.size < (Json.obj fs).size := by
  have hle : ∀ gs : List (String × Json), kv ∈ gs → kv.2.size ≤ Json.size.sizeFields gs := by
    intro gs hg
    induction gs with
    | nil => cases hg
    | cons g gs ih =>
      obtain ⟨l, w⟩ := g
      simp only [Json.size.sizeFields]
      rcases List.mem_cons.mp hg with rfl | hm
      · show Json.size w ≤ Json.size w + Json.size.sizeFields gs
        omega
      · have := ih hm; omega
  have := hle fs h
  simp only [Json.size]
  omega

/-- Structural induction principle for the nested inductive Json. -/
theorem Json.ind (P : Json → Prop)
    (hnull : P .null)
    (hbool : ∀ b, P (.bool b))
    (hnum : ∀ n, P (.num n))
    (hstr : ∀ s, P (.str s))
    (harr : ∀ xs, (∀ x ∈ xs, P x) → P (.arr xs))
    (hobj : ∀ fs, (∀ kv ∈ fs, P (Prod.snd kv)) → P (.obj fs)) :
    ∀ v, P v := by
  have main : ∀ n v, Json.size v ≤ n → P v := by
    intro n
    induction n with
    | zero =>
      intro v hv
      have := Json.size_pos v
      omega
    | succ n ih =>
      intro v hv
      cases v with
      | null => exact hnull
      | bool b => exact hbool b
      | num m => exact hnum m
      | str s => exact hstr s
      | arr xs =>
        refine harr xs fun x hx => ih x ?_
        have := Json.size_lt_of_mem_arr hx
        omega
      | obj fs =>
        refine hobj fs fun kv hkv => ih kv.2 ?_
        have := Json.size_lt_of_mem_obj hkv
        omega
  exact fun v => main v.size v le_rfl

theorem Json.beqList_iff {xs ys : List Json}
    (ih : ∀ x ∈ xs, ∀ b : Json, Json.beq x b = true ↔ x = b) :
    Json.beq.beqList xs ys = true ↔ xs = ys := by
  induction xs generalizing ys with
  | nil =>
    cases ys with
    | nil => simp [Json.beq.beqList]
    | cons y ys => simp [Json.beq.beqList]
  | cons x xs ihl =>
    cases ys with
    | nil => simp [Json.beq.beqList]
    | cons y ys =>
      simp only [Json.beq.beqList, Bool.and_eq_true, List.cons.injEq]
      constructor
      · intro h
        exact ⟨(ih x (List.mem_cons_self x xs) y).mp h.1,
          (ihl (fun z hz => ih z (List.mem_cons_of_mem _ hz))).mp h.2⟩
      · intro h
        exact ⟨(ih x (List.mem_cons_self x xs) y).mpr h.1,
          (ihl (fun z hz => ih z (List.mem_cons_of_mem _ hz))).mpr h.2⟩

theorem Json.beqFields_iff {fs gs : List (String × Json)}
    (ih : ∀ kv ∈ fs, ∀ b : Json, Json.beq (Prod.snd kv) b = true ↔ Prod.snd kv = b) :
    Json.beq.beqFields fs gs = true ↔ fs = gs := by
  induction fs generalizing gs with
  | nil =>
    cases gs with
    | nil => simp [Json.beq.beqFields]
    | cons g gs => obtain ⟨l, w⟩ := g; simp [Json.beq.beqFields]
  | cons f fs ihl =>
    obtain ⟨k, v⟩ := f
    cases gs with
    | nil => simp [Json.beq.beqFields]
    | cons g gs =>
      obtain ⟨l, w⟩ := g
      simp only [Json.beq.beqFields, Bool.and_eq_true, List.cons.injEq, Prod.mk.injEq,
        beq_iff_eq]
      constructor
      · intro h
        exact ⟨⟨h.1.1, (ih (k, v) (List.mem_cons_self _ fs) w).mp h.1.2⟩,
          (ihl (fun z hz => ih z (List.mem_cons_of_mem _ hz))).mp h.2⟩
      · intro h
        exact ⟨⟨h.1.1, (ih (k, v) (List.mem_cons_self _ fs) w).mpr h.1.2⟩,
          (ihl (fun z hz => ih z (List.mem_cons_of_mem _ hz))).mpr h.2⟩

theorem Json.beq_iff_eq : ∀ a b : Json, Json.beq a b = true ↔ a = b := by
  intro a
  induction a using Json.ind with
  | hnull => intro b; cases b <;> simp [Json.beq]
  | hbool x => intro b; cases b <;> simp [Json.beq]
  | hnum x => intro b; cases b <;> simp [Json.beq]
  | hstr x => intro b; cases b <;> simp [Json.beq]
  | harr xs ih =>
    intro b
    cases b with
    | arr ys =>
      simp only [Json.beq, Json.arr.injEq]
      exact Json.beqList_iff ih
    | null => simp [Json.beq]
    | bool y => simp [Json.beq]
    | num y => simp [Json.beq]
    | str y => simp [Json.beq]
    | obj ys => simp [Json.beq]
  | hobj fs ih =>
    intro b
    cases b with
    | obj gs =>
      simp only [Json.beq, Json.obj.injEq]
      exact Json.beqFields_iff ih
    | null => simp [Json.beq]
    | bool y => simp [Json.beq]
    | num y => simp [Json.beq]
    | str y => simp [Json.beq]
    | arr ys => simp [Json.beq]

instance : DecidableEq Json :=
  fun a b => decidable_of_iff (Json.beq a b = true) (Json.beq_iff_eq a b)

/-- Map and concatenate (kept local so every definition kernel-reduces). -/
def catMap (f : α → List β) : List α → List β
  | [] => []
  | x :: xs => f x ++ catMap f xs

/-! ## Decimal rendering (Rust Display for unsigned integers / serde_json
integer output).  Fuel-based so that it reduces in the kernel. -/

def digitChar10 (d : Nat) : Char := Char.ofNat (48 + d)

/-- Least-significant-first decimal digits; fuel bounds the recursion. -/
def natDigitsRev (fuel n : Nat) : List Nat :=
  match fuel with
  | 0 => []
  | fuel + 1 => if n < 10 then [n] else n % 10 :: natDigitsRev fuel (n / 10)

def natToChars (n : Nat) : List Char :=
  ((natDigitsRev (n + 1) n).reverse).map digitChar10

def natToString (n : Nat) : String := String.mk (natToChars n)

/-- Rust i64 Display: minus sign then decimal magnitude. -/
def intToChars (n : Int) : List Char :=
  if n < 0 then '-' :: natToChars n.natAbs else natToChars n.natAbs

/-! ## Canonicalizer (canonical.rs)

The source normalizes a serde_json value by recursively rebuilding every
object through a BTreeMap (string keys ordered bytewise) and then serializes
with serde_json's compact writer.  `sortValue` is the normalization;
`serializeChars` is the compact writer. -/

/-- Strict byte-lexicographic comparison of char lists.  Code-point order
coincides with UTF-8 byte order on well-formed text, which is the order Rust
String Ord (used by BTreeMap) gives. -/
def charsLt : List Char → List Char → Bool
  | [], [] => false
  | [], _ :: _ => true
  | _ :: _, [] => false
  | a :: as, b :: bs =>
    if a.toNat < b.toNat then true
    else if b.toNat < a.toNat then false
    else charsLt as bs

/-- Non-strict key order on object entries (BTreeMap order on keys). -/
def fieldLe (p q : String × Json) : Bool := !(charsLt q.1.data p.1.data)

def insertField (p : String × Json) : List (String × Json) → List (String × Json)
  | [] => [p]
  | q :: rest => if fieldLe p q then p :: q :: rest else q :: insertField p rest

/-- Sort object entries by key (the iteration order of the BTreeMap the
source rebuilds; any sort agrees because keys are unique). -/
def sortFields : List (String × Json) → List (String × Json)
  | [] => []
  | p :: rest => insertField p (sortFields rest)

/-- Canonicalizer::normalize_value - recursively sort every object by key. -/
def sortValue : Json → Json
  | .null => .null
  | .bool b => .bool b
  | .num n => .num n
  | .str s => .str s
  | .arr xs => .arr (goList xs)
  | .obj fs => .obj (sortFields (goFields fs))
where
  goList : List Json → List Json
    | [] => []
    | x :: xs => sortValue x :: goList xs
  goFields : List (String × Json) → List (String × Json)
    | [] => []
    | (k, v) :: fs => (k, sortValue v) :: goFields fs

def hexDigitChar (n : Nat) : Char :=
  Char.ofNat (if n < 10 then 48 + n else 87 + n)

/-- serde_json string escaping: double quote, backslash, and C0 controls
(\b \t \n \f \r short forms, other controls as a six-char \u00XX sequence);
every other code point is emitted verbatim. -/
def escapeChar (c : Char) : List Char :=
  if c = '"' then ['\\', '"']
  else if c = '\\' then ['\\', '\\']
  else if c.toNat = 8 then ['\\', 'b']
  else if c.toNat = 9 then ['\\', 't']
  else if c.toNat = 10 then ['\\', 'n']
  else if c.toNat = 12 then ['\\', 'f']
  else if c.toNat = 13 then ['\\', 'r']
  else if c.toNat < 32 then
    ['\\', 'u', '0', '0', hexDigitChar (c.toNat / 16), hexDigitChar (c.toNat % 16)]
  else [c]

def quoteChars (s : String) : List Char :=
  '"' :: catMap escapeChar s.data ++ ['"']

def joinComma : List (List Char) → List Char
  | [] => []
  | [x] => x
  | x :: y :: rest => x ++ ',' :: joinComma (y :: rest)

/-- serde_json compact serialization (no whitespace, single comma and colon
separators) of a value, as characters. -/
def serializeChars : Json → List Char
  | .null => ['n', 'u', 'l', 'l']
  | .bool b => if b then ['t', 'r', 'u', 'e'] else ['f', 'a', 'l', 's', 'e']
  | .num n => intToChars n
  | .str s => quoteChars s
  | .arr xs => '[' :: joinComma (goList xs) ++ [']']
  | .obj fs => '{' :: joinComma (goFields fs) ++ ['}']
where
  goList : List Json → List (List Char)
    | [] => []
    | x :: xs => serializeChars x :: goList xs
  goFields : List (String × Json) → List (List Char)
    | [] => []
    | (k, v) :: fs => (quoteChars k ++ ':' :: serializeChars v) :: goFields fs

/-- UTF-8 encoding of one code point. -/
def utf8Char (c : Char) : List Nat :=
  let n := c.toNat
  if n < 0x80 then [n]
  else if n < 0x800 then [0xC0 + n / 64, 0x80 + n % 64]
  else if n < 0x10000 then [0xE0 + n / 4096, 0x80 + n / 64 % 64, 0x80 + n % 64]
  else [0xF0 + n / 262144, 0x80 + n / 4096 % 64, 0x80 + n / 64 % 64, 0x80 + n % 64]

def utf8Bytes (s : String) : List Nat := catMap utf8Char s.data

namespace Canonicalizer

/-- Canonicalizer::canonicalize_str - normalize then serialize compactly. -/
def canonicalize_str (v : Json) : String :=
  String.mk (serializeChars (sortValue v))

/-- Canonicalizer::canonicalize - the canonical byte sequence (UTF-8 bytes of
the canonical string).  The Rust Result is always Ok for in-memory values, so
the embedding is total. -/
def canonicalize (v : Json) : List Nat :=
  utf8Bytes (canonicalize_str v)

end Canonicalizer

/-! Proof-support predicates for the canonicalization claims. -/

/-- All keys of one association list pairwise distinct. -/
def distinctKeys : List (String × Json) → Bool
  | [] => true
  | (k, _) :: fs => !(fs.any (fun q => q.1 == k)) && distinctKeys fs

/-- serde_json object invariant: every object in the tree has unique keys. -/
def Json.uniq : Json → Bool
  | .null | .bool _ | .num _ | .str _ => true
  | .arr xs => goList xs
  | .obj fs => distinctKeys fs && goFields fs
where
  goList : List Json → Bool
    | [] => true
    | x :: xs => Json.uniq x && goList xs
  goFields : List (String × Json) → Bool
    | [] => true
    | (_, v) :: fs => Json.uniq v && goFields fs

/-- v and w agree up to permuting the stored key order of objects
(recursively).  This is the input relation of the key-order-invariance claim. -/
def KeyPerm : Json → Json → Prop
  | .arr xs, .arr ys => kpList xs ys
  | .obj fs, .obj gs => ∃ gs0, List.Perm gs0 gs ∧ kpFields fs gs0
  | a, b => a = b
where
  kpList : List Json → List Json → Prop
    | [], [] => True
    | x :: xs, y :: ys => KeyPerm x y ∧ kpList xs ys
    | _, _ => False
  kpFields : List (String × Json) → List (String × Json) → Prop
    | [], [] => True
    | (k, v) :: fs, (l, w) :: gs => k = l ∧ KeyPerm v w ∧ kpFields fs gs
    | _, _ => False

/-- Adjacent-pairs key sortedness of one field list. -/
def sortedKeysB : List (String × Json) → Bool
  | [] => true
  | [_] => true
  | p :: q :: rest => fieldLe p q && sortedKeysB (q :: rest)

/-- Every object in the tree has its keys in byte-lexicographic order. -/
def Json.keysSorted : Json → Bool
  | .null | .bool _ | .num _ | .str _ => true
  | .arr xs => goList xs
  | .obj fs => sortedKeysB fs && goFields fs
where
  goList : List Json → Bool
    | [] => true
    | x :: xs => Json.keysSorted x && goList xs
  goFields : List (String × Json) → Bool
    | [] => true
    | (_, v) :: fs => Json.keysSorted v && goFields fs

/-! ## Hasher: SHA3-256 over byte lists (the sha3 crate primitive).

Keccak-f[1600] on 25 lanes of 64 bits; lanes are Nat values kept below 2^64
by masking.  Rate 1088 bits (136 bytes), SHA3 domain padding 0x06...0x80. -/

def M64 : Nat := 0xFFFFFFFFFFFFFFFF

def rotl64 (w n : Nat) : Nat :=
  ((w <<< n) ||| (w >>> (64 - n))) &&& M64

def not64 (w : Nat) : Nat := w ^^^ M64

def keccakRC : List Nat :=
  [0x0000000000000001, 0x0000000000008082, 0x800000000000808A,
   0x8000000080008000, 0x000000000000808B, 0x0000000080000001,
   0x8000000080008081, 0x8000000000008009] ++
  [0x000000000000008A, 0x0000000000000088, 0x0000000080008009,
   0x000000008000000A, 0x000000008000808B, 0x800000000000008B,
   0x8000000000008089, 0x8000000000008003] ++
  [0x8000000000008002, 0x8000000000000080, 0x000000000000800A,
   0x800000008000000A, 0x8000000080008081, 0x8000000000008080,
   0x0000000080000001, 0x8000000080008008]

def keccakRot : List Nat :=
  [0, 1, 62, 28, 27] ++
  [36, 44, 6, 55, 20] ++
  [3, 10, 43, 25, 39] ++
  [41, 45, 15, 21, 8] ++
  [18, 2, 61, 56, 14]

def lane (s : List Nat) (i : Nat) : Nat := s.getD i 0

def keccakRound (s : List Nat) (rc : Nat) : List Nat :=
  let c := (List.range 5).map (fun x =>
    lane s x ^^^ lane s (x + 5) ^^^ lane s (x + 10) ^^^ lane s (x + 15) ^^^ lane s (x + 20))
  let d := (List.range 5).map (fun x =>
    (c.getD ((x + 4) % 5) 0) ^^^ rotl64 (c.getD ((x + 1) % 5) 0) 1)
  let a1 := (List.range 25).map (fun i => lane s i ^^^ d.getD (i % 5) 0)
  let b := (List.range 25).map (fun j =>
    let y := j % 5
    let x := (3 * (j / 5 + 15 - 3 * y)) % 5
    rotl64 (lane a1 (x + 5 * y)) (keccakRot.getD (x + 5 * y) 0))
  let a2 := (List.range 25).map (fun j =>
    let x := j % 5
    let y := j / 5
    lane b j ^^^ (not64 (lane b ((x + 1) % 5 + 5 * y)) &&& lane b ((x + 2) % 5 + 5 * y)))
  match a2 with
  | a0 :: rest => (a0 ^^^ rc) :: rest
  | [] => []

def keccakF (s : List Nat) : List Nat :=
  keccakRC.foldl keccakRound s

/-- Little-endian 64-bit lane from up to eight bytes. -/
def load64 (bs : List Nat) : Nat := bs.foldr (fun b acc => b + 256 * acc) 0

def xorBlock (st block : List Nat) : List Nat :=
  (List.range 25).map (fun j =>
    if j < 17 then lane st j ^^^ load64 ((block.drop (8 * j)).take 8) else lane st j)

def sha3pad (msg : List Nat) : List Nat :=
  let q := 136 - msg.length % 136
  if q = 1 then msg ++ [0x86]
  else msg ++ [0x06] ++ List.replicate (q - 2) 0 ++ [0x80]

/-- SHA3-256 digest (32 bytes) of a byte list. -/
def sha3_256 (msg : List Nat) : List Nat :=
  let padded := sha3pad msg
  let nb := padded.length / 136
  let final := (List.range nb).foldl
    (fun st i => keccakF (xorBlock st ((padded.drop (136 * i)).take 136)))
    (List.replicate 25 0)
  (List.range 32).map (fun i => (lane final (i / 8) >>> (8 * (i % 8))) &&& 0xFF)

/-- hex::encode - lowercase hex of a byte list. -/
def hexEncode (bs : List Nat) : String :=
  String.mk (catMap (fun b => [hexDigitChar (b / 16 % 16), hexDigitChar (b % 16)]) bs)

/-- Hash as the source carries it: 64 lowercase hex chars of a SHA3-256. -/
def hashHex (bs : List Nat) : String := hexEncode (sha3_256 bs)

/-! ## Error taxonomy (error.rs).  Payload strings mirror the formatted
messages only where a claim depends on them. -/

inductive BmsError where
  | serialization (msg : String)
  | invalidCoordinate (msg : String)
  | deltaCompression (msg : String)
  | hashMismatch (expected actual : String)
  | merkleChainBroken (delta_id : String)
  | snapshotNotFound (msg : String)
  | deltaNotFound (msg : String)
  | invalidState (msg : String)
  | reconstructionFailed (msg : String)
  | coordinateCollision (id : String)
  | otherError (msg : String)
deriving DecidableEq

/-! ## Timestamps.  chrono DateTime<Utc>::to_rfc3339 on a whole-second
instant prints year-month-dayThh:mm:ss+00:00 (zero-padded, +00:00 offset). -/

structure UtcTime where
  year : Nat
  month : Nat
  day : Nat
  hour : Nat
  minute : Nat
  second : Nat
deriving DecidableEq

def pad2 (n : Nat) : List Char :=
  if n < 10 then '0' :: natToChars n else natToChars n

def pad4 (n : Nat) : List Char :=
  if n < 10 then '0' :: '0' :: '0' :: natToChars n
  else if n < 100 then '0' :: '0' :: natToChars n
  else if n < 1000 then '0' :: natToChars n
  else natToChars n

def UtcTime.toRfc3339 (t : UtcTime) : String :=
  String.mk (pad4 t.year ++ '-' :: pad2 t.month ++ '-' :: pad2 t.day ++
    'T' :: pad2 t.hour ++ ':' :: pad2 t.minute ++ ':' :: pad2 t.second ++
    ['+', '0', '0', ':', '0', '0'])

/-! ## CoordinateGenerator (coordinate.rs). -/

def base32Alphabet : List Char := "ABCDEFGHIJKLMNOPQRSTUVWXYZ234567".data

/-- Bits of one byte, most significant first, as 0/1 values. -/
def byteBitsN (b : Nat) : List Nat :=
  [b / 128 % 2, b / 64 % 2, b / 32 % 2, b / 16 % 2, b / 8 % 2, b / 4 % 2, b / 2 % 2, b % 2]

def chunkVal (bits : List Nat) : Nat := bits.foldl (fun a b => 2 * a + b) 0

/-- RFC 4648 base32, uppercase alphabet, no padding (the base32 crate with
Alphabet::Rfc4648 padding:false). -/
def base32Encode (bs : List Nat) : String :=
  let bits := catMap byteBitsN bs
  let nChunks := (bits.length + 4) / 5
  String.mk ((List.range nChunks).map (fun i =>
    let c := (bits.drop (5 * i)).take 5
    base32Alphabet.getD (chunkVal c * 2 ^ (5 - c.length)) 'A'))

/-- u32::to_le_bytes. -/
def leBytes32 (n : Nat) : List Nat :=
  [n % 256, n / 256 % 256, n / 65536 % 256, n / 16777216 % 256]

namespace CoordinateGenerator

/-- CoordinateGenerator::generate - canonical state, a pipe separator, the
RFC 3339 timestamp; SHA3-256; first 16 bytes; base32. -/
def generate (state : Json) (timestamp : UtcTime) : String :=
  let input := Canonicalizer.canonicalize state ++ 0x7C :: utf8Bytes timestamp.toRfc3339
  base32Encode ((sha3_256 input).take 16)

/-- CoordinateGenerator::generate_with_nonce - also appends a pipe and the
little-endian nonce bytes. -/
def generate_with_nonce (state : Json) (timestamp : UtcTime) (nonce : Nat) : String :=
  let input := Canonicalizer.canonicalize state ++ 0x7C :: utf8Bytes timestamp.toRfc3339 ++
    0x7C :: leBytes32 nonce
  base32Encode ((sha3_256 input).take 16)

/-- A coordinate character: ASCII uppercase or a digit 2..7. -/
def validChar (c : Char) : Bool :=
  (65 ≤ c.toNat && c.toNat ≤ 90) || (50 ≤ c.toNat && c.toNat ≤ 55)

/-- CoordinateGenerator::validate. -/
def validate (coord_id : String) : Except BmsError Unit :=
  if coord_id.length ≠ 26 then
    .error (.invalidCoordinate ("Expected 26 characters, got " ++ natToString coord_id.length))
  else if !(coord_id.data.all validChar) then
    .error (.invalidCoordinate "Invalid base32 characters")
  else
    .ok ()

end CoordinateGenerator

/-! ## json-patch crate embedding (the dependency delta.rs drives).

A pointer is the list of decoded reference tokens (jsonptr keeps tokens; the
slash-and-tilde escaping only appears in the serialized form).  The diff
algorithm is the crate's structural diff: objects recurse per key with
removes for left-only keys and adds for right-only keys; arrays recurse
pairwise over the common prefix, then remove the left tail downward from the
highest index and append the right tail; anything else is a whole-value
replace when the two sides differ.  Application follows RFC 6902: add
inserts/appends (array index up to the length, object key upsert), remove
and replace demand an existing target, and intermediate path segments must
resolve. -/

namespace JsonPatch

abbrev Path := List String

inductive PatchOp where
  | add (path : Path) (value : Json)
  | remove (path : Path)
  | replace (path : Path) (value : Json)
deriving DecidableEq

/-- RFC 6901 token escaping for the serialized pointer. -/
def escapeTokenChar (c : Char) : List Char :=
  if c = '~' then ['~', '0'] else if c = '/' then ['~', '1'] else [c]

def pathString (p : Path) : String :=
  String.mk (catMap (fun t => '/' :: catMap escapeTokenChar t.data) p)

/-- serde_json::to_value of one operation (serde tag "op"; keys are already
in canonical sorted order). -/
def opToJson : PatchOp → Json
  | .add p v => .obj [("op", .str "add"), ("path", .str (pathString p)), ("value", v)]
  | .remove p => .obj [("op", .str "remove"), ("path", .str (pathString p))]
  | .replace p v => .obj [("op", .str "replace"), ("path", .str (pathString p)), ("value", v)]

def opsToJson (ops : List PatchOp) : Json := .arr (ops.map opToJson)

def lookupKey : List (String × Json) → String → Option Json
  | [], _ => none
  | (l, v) :: fs, k => if l = k then some v else lookupKey fs k

def hasKey (fs : List (String × Json)) (k : String) : Bool := (lookupKey fs k).isSome

def replaceKey : List (String × Json) → String → Json → List (String × Json)
  | [], _, _ => []
  | (l, w) :: fs, k, v => if l = k then (l, v) :: fs else (l, w) :: replaceKey fs k v

def removeKey : List (String × Json) → String → List (String × Json)
  | [], _ => []
  | (l, w) :: fs, k => if l = k then fs else (l, w) :: removeKey fs k

/-- Map insert: overwrite in place if the key exists, else append.  (Only the
key-value content is observable through canonicalization.) -/
def insertKeyMap (fs : List (String × Json)) (k : String) (v : Json) : List (String × Json) :=
  if hasKey fs k then replaceKey fs k v else fs ++ [(k, v)]

def listSetAt : List Json → Nat → Json → List Json
  | [], _, _ => []
  | _ :: xs, 0, v => v :: xs
  | x :: xs, i + 1, v => x :: listSetAt xs i v

def listInsertAt : List Json → Nat → Json → List Json
  | xs, 0, v => v :: xs
  | [], _ + 1, v => [v]
  | x :: xs, i + 1, v => x :: listInsertAt xs i v

def listRemoveAt : List Json → Nat → List Json
  | [], _ => []
  | _ :: xs, 0 => xs
  | x :: xs, i + 1 => x :: listRemoveAt xs i

def digitVal (c : Char) : Option Nat :=
  if 48 ≤ c.toNat && c.toNat ≤ 57 then some (c.toNat - 48) else none

def parseDigits : List Char → Nat → Option Nat
  | [], acc => some acc
  | c :: rest, acc =>
    match digitVal c with
    | some d => parseDigits rest (acc * 10 + d)
    | none => none

/-- Array index parsing per RFC 6901/6902: decimal digits, no leading zero
(except the single digit 0). -/
def parseIdx (s : String) : Option Nat :=
  match s.data with
  | [] => none
  | c :: rest =>
    if c = '0' then (if rest.isEmpty then some 0 else none)
    else parseDigits (c :: rest) 0

/-- Resolve one token against a value (jsonptr resolution step). -/
def childAt (doc : Json) (tok : String) : Option Json :=
  match doc with
  | .obj fs => lookupKey fs tok
  | .arr xs =>
    match parseIdx tok with
    | some i => xs.get? i
    | none => none
  | _ => none

/-- Navigate a path, run f on the target, and rebuild the document. -/
def editAt (f : Json → Except String Json) : Json → Path → Except String Json
  | doc, [] => f doc
  | doc, t :: rest =>
    match doc with
    | .obj fs =>
      match lookupKey fs t with
      | some c => (editAt f c rest).map (fun c1 => .obj (replaceKey fs t c1))
      | none => .error "path not found"
    | .arr xs =>
      match parseIdx t with
      | some i =>
        match xs.get? i with
        | some c => (editAt f c rest).map (fun c1 => .arr (listSetAt xs i c1))
        | none => .error "index out of bounds"
      | none => .error "invalid array index"
    | _ => .error "cannot traverse scalar"

def splitLast : Path → Option (Path × String)
  | [] => none
  | [t] => some ([], t)
  | t :: rest => (splitLast rest).map (fun pr => (t :: pr.1, pr.2))

/-- RFC 6902 add against the parent container. -/
def addChild (tok : String) (v : Json) (parent : Json) : Except String Json :=
  match parent with
  | .obj fs => .ok (.obj (insertKeyMap fs tok v))
  | .arr xs =>
    if tok = "-" then .ok (.arr (xs ++ [v]))
    else
      match parseIdx tok with
      | some i =>
        if i ≤ xs.length then .ok (.arr (listInsertAt xs i v))
        else .error "add index out of bounds"
      | none => .error "invalid array index"
  | _ => .error "cannot add to scalar"

/-- RFC 6902 remove against the parent container. -/
def removeChild (tok : String) (parent : Json) : Except String Json :=
  match parent with
  | .obj fs =>
    if hasKey fs tok then .ok (.obj (removeKey fs tok)) else .error "remove key not found"
  | .arr xs =>
    match parseIdx tok with
    | some i =>
      if i < xs.length then .ok (.arr (listRemoveAt xs i))
      else .error "remove index out of bounds"
    | none => .error "invalid array index"
  | _ => .error "cannot remove from scalar"

def applyOp (doc : Json) : PatchOp → Except String Json
  | .add p v =>
    match splitLast p with
    | none => .ok v
    | some (pre, t) => editAt (addChild t v) doc pre
  | .remove p =>
    match splitLast p with
    | none => .error "cannot remove root"
    | some (pre, t) => editAt (removeChild t) doc pre
  | .replace p v => editAt (fun _ => .ok v) doc p

/-- json_patch::patch - sequential application (atomicity is free here since
the input document is never mutated). -/
def patch (doc : Json) (ops : List PatchOp) : Except String Json :=
  ops.foldlM applyOp doc

/-- Tail removals at indices n+k-1 down to n (highest first, so the
remaining indices stay valid during application). -/
def removeTail (p : Path) (n : Nat) : Nat → List PatchOp
  | 0 => []
  | k + 1 => .remove (p ++ [natToString (n + k)]) :: removeTail p n k

/-- Tail additions at indices i, i+1, ... -/
def addTail (p : Path) : Nat → List Json → List PatchOp
  | _, [] => []
  | i, r :: rs => .add (p ++ [natToString i]) r :: addTail p (i + 1) rs

/-- Right-only keys become adds (in the right map's order). -/
def addNew (rf lf : List (String × Json)) (p : Path) : List PatchOp :=
  (rf.filter (fun kv => !(hasKey lf kv.1))).map (fun kv => .add (p ++ [kv.1]) kv.2)

/-- json_patch::diff - the crate's recursive structural diff. -/
def diffImpl : Json → Json → Path → List PatchOp
  | .obj lf, .obj rf, p => goObj lf rf p ++ addNew rf lf p
  | .arr ls, .arr rs, p =>
    let n := min ls.length rs.length
    goArr ls rs p 0 ++ removeTail p n (ls.length - n) ++ addTail p n (rs.drop n)
  | l, r, p => if l = r then [] else [.replace p r]
where
  goObj : List (String × Json) → List (String × Json) → Path → List PatchOp
    | [], _, _ => []
    | (k, lv) :: rest, rf, p =>
      (match lookupKey rf k with
       | some rv => diffImpl lv rv (p ++ [k])
       | none => [.remove (p ++ [k])]) ++ goObj rest rf p
  goArr : List Json → List Json → Path → Nat → List PatchOp
    | l :: ls, r :: rs, p, i => diffImpl l r (p ++ [natToString i]) ++ goArr ls rs p (i + 1)
    | _, _, _, _ => []

def diff (l r : Json) : List PatchOp := diffImpl l r []

end JsonPatch

/-! ## DeltaEngine (delta.rs). -/

namespace DeltaEngine

/-- DeltaEngine::compute_delta (the Rust Result is always Ok). -/
def compute_delta (prev_state current_state : Json) : List JsonPatch.PatchOp :=
  JsonPatch.diff prev_state current_state

/-- DeltaEngine::apply_delta; a json_patch::PatchError comes back as
DeltaCompression (the From impl in error.rs). -/
def apply_delta (state : Json) (ops : List JsonPatch.PatchOp) : Except BmsError Json :=
  match JsonPatch.patch state ops with
  | .ok st => .ok st
  | .error e => .error (.deltaCompression e)

/-- DeltaEngine::hash_delta - SHA3-256 of the canonicalized ops value. -/
def hash_delta (ops : List JsonPatch.PatchOp) : String :=
  hashHex (Canonicalizer.canonicalize (JsonPatch.opsToJson ops))

/-- DeltaEngine::generate_delta_id - first 16 digest bytes as 32 hex chars. -/
def generate_delta_id (ops : List JsonPatch.PatchOp) : String :=
  hexEncode ((sha3_256 (Canonicalizer.canonicalize (JsonPatch.opsToJson ops))).take 16)

/-- DeltaEngine::hash_state. -/
def hash_state (state : Json) : String :=
  hashHex (Canonicalizer.canonicalize state)

/-- DeltaEngine::verify_delta_hash. -/
def verify_delta_hash (ops : List JsonPatch.PatchOp) (expected_hash : String) :
    Except BmsError Unit :=
  let actual := hash_delta ops
  if actual ≠ expected_hash then .error (.hashMismatch expected_hash actual) else .ok ()

end DeltaEngine

/-! ## Data model (types.rs).

created_at and tags are omitted: the repository contract returns deltas and
snapshots in created_at order, which the per-coordinate lists below carry
positionally, and the orchestrator always stores tags = None. -/

structure Delta where
  id : String
  coord_id : String
  parent_id : Option String
  parent_hash : Option String
  delta_hash : String
  chain_hash : String
  ops : List JsonPatch.PatchOp
  author : Option String
deriving DecidableEq

structure Snapshot where
  id : String
  coord_id : String
  head_delta_id : String
  state_hash : String
  state : Json
deriving DecidableEq

/-! ## MerkleChain (merkle.rs). -/

namespace MerkleChain

/-- MerkleChain::compute_chain_hash - SHA3-256 over the concatenated hex
STRING bytes of the parent hash and the delta hash. -/
def compute_chain_hash (parent_hash delta_hash : String) : String :=
  hashHex (utf8Bytes parent_hash ++ utf8Bytes delta_hash)

/-- MerkleChain::verify_delta.  A parentless delta passes immediately. -/
def verify_delta (delta : Delta) : Except BmsError Unit :=
  match delta.parent_id with
  | none => .ok ()
  | some _ =>
    match delta.parent_hash with
    | none => .error (.merkleChainBroken delta.id)
    | some ph =>
      let expected := compute_chain_hash ph delta.delta_hash
      if expected ≠ delta.chain_hash then .error (.hashMismatch expected delta.chain_hash)
      else .ok ()

/-- MerkleChain::verify_chain - first failure aborts. -/
def verify_chain : List Delta → Except BmsError Unit
  | [] => .ok ()
  | d :: ds =>
    match verify_delta d with
    | .ok _ => verify_chain ds
    | .error e => .error e

/-- MerkleChain::find_break_point. -/
def find_break_point (deltas : List Delta) : Option Nat :=
  go deltas 0
where
  go : List Delta → Nat → Option Nat
    | [], _ => none
    | d :: ds, i =>
      match verify_delta d with
      | .error _ => some i
      | .ok _ => go ds (i + 1)

/-- MerkleChain::verify_chain_integrity - index of the first break (or the
length) together with the first error. -/
def verify_chain_integrity (deltas : List Delta) : Nat × Option BmsError :=
  go deltas 0
where
  go : List Delta → Nat → Nat × Option BmsError
    | [], i => (i, none)
    | d :: ds, i =>
      match verify_delta d with
      | .error e => (i, some e)
      | .ok _ => go ds (i + 1)

end MerkleChain

/-! ## SnapshotManager (snapshot.rs).  The struct holds only the interval,
passed explicitly here.  (Rust panics on interval 0; cadence theorems assume
a positive interval.) -/

namespace SnapshotManager

/-- SnapshotManager::should_snapshot. -/
def should_snapshot (snapshot_interval delta_count : Nat) : Bool :=
  delta_count % snapshot_interval == 0

/-- SnapshotManager::create_snapshot - id is the first 32 hex chars of the
state hash. -/
def create_snapshot (coord_id head_delta_id : String) (state : Json) : Snapshot :=
  let state_hash := DeltaEngine.hash_state state
  { id := String.mk (state_hash.data.take 32), coord_id, head_delta_id, state_hash, state }

/-- SnapshotManager::reconstruct - start from the snapshot state and apply
every delta it is given, in order (the caller chooses which deltas). -/
def reconstruct (snapshot : Snapshot) (deltas : List Delta) : Except BmsError Json :=
  deltas.foldlM (fun st d => DeltaEngine.apply_delta st d.ops) snapshot.state

/-- SnapshotManager::verify_snapshot. -/
def verify_snapshot (snapshot : Snapshot) : Except BmsError Unit :=
  let computed := DeltaEngine.hash_state snapshot.state
  if computed ≠ snapshot.state_hash then
    .error (.hashMismatch snapshot.state_hash computed)
  else .ok ()

end SnapshotManager

/-! ## Repository state and the HTTP orchestrator (handlers.rs).

The relational store is modelled as per-coordinate lists in insertion order
(the repository contract returns deltas ascending by created_at and the
latest snapshot is the most recently created one). -/

structure Repo where
  coords : List String
  deltas : String → List Delta
  snapshots : String → List Snapshot

def emptyRepo : Repo := ⟨[], fun _ => [], fun _ => []⟩

def updFun (f : String → α) (k : String) (v : α) : String → α :=
  fun x => if x = k then v else f x

structure StoreResponse where
  coord_id : String
  delta_id : String
  snapshot_created : Bool
deriving DecidableEq

structure RecallResponse where
  coord_id : String
  state : Json
  delta_count : Nat
deriving DecidableEq

structure VerifyResponse where
  coord_id : String
  verified_deltas : Nat
  total_deltas : Nat
  chain_valid : Bool
  first_break : Option Nat
deriving DecidableEq

/-- handlers.rs AppError; NotFound renders as HTTP 404, core errors as 500. -/
inductive AppError where
  | bmsError (e : BmsError)
  | notFound (msg : String)
deriving DecidableEq

/-- The status code IntoResponse assigns. -/
def AppError.status : AppError → Nat
  | .bmsError _ => 500
  | .notFound _ => 404

namespace Handlers

def get_latest_snapshot (repo : Repo) (coord_id : String) : Option Snapshot :=
  (repo.snapshots coord_id).getLast?

/-- The inline reconstruction loop the handlers repeat: fold apply over the
given deltas starting from the empty object. -/
def foldDeltas (deltas : List Delta) : Except BmsError Json :=
  deltas.foldlM (fun st d => DeltaEngine.apply_delta st d.ops) (Json.obj [])

/-- Previous/current state resolution shared by the handlers: reconstruct
from the latest snapshot plus ALL stored deltas when a snapshot exists, else
fold every delta from the empty object.  (store_state's extra empty-deltas
branch returns the empty object, which is also what the fold over an empty
list returns, so the three inline copies in handlers.rs all equal this.) -/
def loadState (repo : Repo) (coord_id : String) : Except BmsError Json :=
  match get_latest_snapshot repo coord_id with
  | some snapshot => SnapshotManager.reconstruct snapshot (repo.deltas coord_id)
  | none => foldDeltas (repo.deltas coord_id)

/-- The delta store_state builds and persists: patch from the previous
state, its hash/id, and the chain link to the last stored delta. -/
def newDelta (deltas : List Delta) (coord_id : String) (prev_state state : Json)
    (author : Option String) : Delta :=
  let ops := DeltaEngine.compute_delta prev_state state
  let delta_hash := DeltaEngine.hash_delta ops
  let delta_id := DeltaEngine.generate_delta_id ops
  let parent := match deltas.getLast? with
    | some last => (some last.id, some last.chain_hash)
    | none => (none, none)
  let chain_hash := match parent.2 with
    | some ph => MerkleChain.compute_chain_hash ph delta_hash
    | none => delta_hash
  { id := delta_id, coord_id, parent_id := parent.1, parent_hash := parent.2,
    delta_hash, chain_hash, ops, author }

/-- handlers.rs store_state.  The coordinate hint is adopted verbatim; when
absent the id is derived from the state at the current instant (`now`). -/
def store_state (interval : Nat) (now : UtcTime) (repo : Repo)
    (coord_hint : Option String) (state : Json) (author : Option String) :
    Except BmsError (Repo × StoreResponse) :=
  let coord_id := match coord_hint with
    | some hint => hint
    | none => CoordinateGenerator.generate state now
  let coords := if repo.coords.contains coord_id then repo.coords else coord_id :: repo.coords
  let deltas := repo.deltas coord_id
  match loadState repo coord_id with
  | .error e => .error e
  | .ok prev_state =>
    let delta := newDelta deltas coord_id prev_state state author
    let repo1 : Repo :=
      { coords, deltas := updFun repo.deltas coord_id (deltas ++ [delta]),
        snapshots := repo.snapshots }
    if SnapshotManager.should_snapshot interval (deltas.length + 1) then
      let snapshot := SnapshotManager.create_snapshot coord_id delta.id state
      let repo2 : Repo :=
        { repo1 with
          snapshots := updFun repo1.snapshots coord_id (repo.snapshots coord_id ++ [snapshot]) }
      .ok (repo2, { coord_id, delta_id := delta.id, snapshot_created := true })
    else
      .ok (repo1, { coord_id, delta_id := delta.id, snapshot_created := false })

/-- handlers.rs recall_state (the delta_id query parameter is unused). -/
def recall_state (repo : Repo) (coord_id : String) : Except AppError RecallResponse :=
  let deltas := repo.deltas coord_id
  if deltas.isEmpty then
    .error (.notFound ("No deltas found for coordinate: " ++ coord_id))
  else
    match loadState repo coord_id with
    | .ok state => .ok { coord_id, state, delta_count := deltas.length }
    | .error e => .error (.bmsError e)

/-- handlers.rs verify_chain endpoint (no emptiness check). -/
def verify_chain (repo : Repo) (coord_id : String) : Except AppError VerifyResponse :=
  let deltas := repo.deltas coord_id
  let res := MerkleChain.verify_chain_integrity deltas
  .ok { coord_id, verified_deltas := res.1, total_deltas := deltas.length,
        chain_valid := res.2.isNone,
        first_break := if res.2.isSome then some res.1 else none }

/-- Last delta id; the caller guarantees a nonempty chain (source unwraps). -/
def lastDeltaId (deltas : List Delta) : String :=
  match deltas.getLast? with
  | some d => d.id
  | none => ""

/-- handlers.rs create_snapshot endpoint (force snapshot). -/
def create_snapshot (repo : Repo) (coord_id : String) :
    Except AppError (Repo × String × String) :=
  let deltas := repo.deltas coord_id
  if deltas.isEmpty then
    .error (.notFound ("No deltas found for coordinate: " ++ coord_id))
  else
    match loadState repo coord_id with
    | .error e => .error (.bmsError e)
    | .ok state =>
      let snapshot := SnapshotManager.create_snapshot coord_id (lastDeltaId deltas) state
      let repo2 : Repo :=
        { repo with
          snapshots := updFun repo.snapshots coord_id (repo.snapshots coord_id ++ [snapshot]) }
      .ok (repo2, snapshot.id, snapshot.state_hash)

/-- Fold store_state over a list of states under one coordinate hint (the
orchestrator-built chain the chain-soundness claim quantifies over). -/
def appendMany (interval : Nat) (now : UtcTime) (coord_id : String) (states : List Json) :
    Except BmsError Repo :=
  states.foldlM
    (fun repo s => (store_state interval now repo (some coord_id) s none).map Prod.fst)
    emptyRepo

end Handlers

/-! ## Proof-support definitions. -/

def exceptIsOk : Except ε α → Bool
  | .ok _ => true
  | .error _ => false

instance [DecidableEq ε] [DecidableEq α] : DecidableEq (Except ε α) := fun a b =>
  match a, b with
  | .ok x, .ok y => if h : x = y then .isTrue (by rw [h]) else .isFalse (by simp [h])
  | .error x, .error y => if h : x = y then .isTrue (by rw [h]) else .isFalse (by simp [h])
  | .ok _, .error _ => .isFalse (by simp)
  | .error _, .ok _ => .isFalse (by simp)

namespace JsonPatch

/-- Resolve a whole path (jsonptr resolve). -/
def getPath : Json → Path → Option Json
  | doc, [] => some doc
  | doc, t :: rest =>
    match childAt doc t with
    | some c => getPath c rest
    | none => none

/-- Total functional update at a resolvable path (identity off-path). -/
def setPathT : Json → Path → Json → Json
  | _, [], v => v
  | doc, t :: rest, v =>
    match doc with
    | .obj fs =>
      match lookupKey fs t with
      | some c => .obj (replaceKey fs t (setPathT c rest v))
      | none => doc
    | .arr xs =>
      match parseIdx t with
      | some i =>
        match xs.get? i with
        | some c => .arr (listSetAt xs i (setPathT c rest v))
        | none => doc
      | none => doc
    | _ => doc

end JsonPatch

/-- The per-index chain-link invariant of an orchestrator-built chain. -/
def ChainInv (ds : List Delta) : Prop :=
  ∀ i (h : i < ds.length),
    ((ds.get ⟨i, h⟩).parent_id = none ↔ (ds.get ⟨i, h⟩).parent_hash = none) ∧
    ((ds.get ⟨i, h⟩).parent_id = none ↔ i = 0) ∧
    (i = 0 → (ds.get ⟨i, h⟩).chain_hash = (ds.get ⟨i, h⟩).delta_hash) ∧
    (∀ ph, (ds.get ⟨i, h⟩).parent_hash = some ph →
      (ds.get ⟨i, h⟩).chain_hash =
        MerkleChain.compute_chain_hash ph (ds.get ⟨i, h⟩).delta_hash)

/-- The fixed instant used by the concrete scenarios (2025-10-28T12:00:00Z). -/
def sampleTime : UtcTime := ⟨2025, 10, 28, 12, 0, 0⟩

/-- Two appends under coordinate C with snapshot interval 2: first the object
with field a=1, then the bare array [9].  The second append fires the cadence
rule, so the stored snapshot state is [9]. -/
def c2Repo : Except BmsError Repo :=
  match Handlers.store_state 2 sampleTime emptyRepo (some "C") (.obj [("a", .num 1)]) none with
  | .error e => .error e
  | .ok (r1, _) =>
    match Handlers.store_state 2 sampleTime r1 (some "C") (.arr [.num 9]) none with
    | .error e => .error e
    | .ok (r2, _) => .ok r2

/-! # Theorems -/

/-- C10: verify_delta raises an error if and only if the delta's parent_id is
present and either its parent_hash is absent (MerkleChainBroken) or its
chain_hash differs from compute_chain_hash(parent_hash, delta_hash)
(HashMismatch); every delta with parent_id == None passes unconditionally,
regardless of its ops, delta_hash, or chain_hash. -/
theorem c10_verify_delta_characterization :
    (∀ (d : Delta) (e : BmsError),
      MerkleChain.verify_delta d = .error e ↔
        (d.parent_id ≠ none ∧
          ((d.parent_hash = none ∧ e = .merkleChainBroken d.id) ∨
           (∃ ph, d.parent_hash = some ph ∧
             MerkleChain.compute_chain_hash ph d.delta_hash ≠ d.chain_hash ∧
             e = .hashMismatch (MerkleChain.compute_chain_hash ph d.delta_hash)
               d.chain_hash)))) ∧
    (∀ (d : Delta) (o : List JsonPatch.PatchOp) (dh ch : String),
      d.parent_id = none →
      MerkleChain.verify_delta { d with ops := o, delta_hash := dh, chain_hash := ch } =
        .ok ()) := by
  constructor
  · intro d e
    obtain ⟨did, dcid, dpid, dph, ddh, dch, dops, dauth⟩ := d
    cases dpid with
    | none => simp [MerkleChain.verify_delta]
    | some pid =>
      cases dph with
      | none => simp [MerkleChain.verify_delta, eq_comm]
      | some ph =>
        by_cases hne : MerkleChain.compute_chain_hash ph ddh ≠ dch
        · have h2 : MerkleChain.verify_delta
              ⟨did, dcid, some pid, some ph, ddh, dch, dops, dauth⟩ =
              .error (.hashMismatch (MerkleChain.compute_chain_hash ph ddh) dch) := by
            simp [MerkleChain.verify_delta, hne]
          rw [h2]
          constructor
          · intro he
            injection he with he
            exact ⟨by simp, Or.inr ⟨ph, rfl, hne, he.symm⟩⟩
          · rintro ⟨-, (⟨hnone, -⟩ | ⟨ph2, hph2, -, hee⟩)⟩
            · cases hnone
            · injection hph2 with hph2
              subst hph2
              rw [hee]
        · simp only [not_not] at hne
          have h2 : MerkleChain.verify_delta
              ⟨did, dcid, some pid, some ph, ddh, dch, dops, dauth⟩ = .ok () := by
            simp [MerkleChain.verify_delta, hne]
          rw [h2]
          constructor
          · intro he
            exact absurd he (by simp)
          · rintro ⟨-, (⟨hnone, -⟩ | ⟨ph2, hph2, hneq, -⟩)⟩
            · cases hnone
            · injection hph2 with hph2
              subst hph2
              exact absurd hne hneq
  · intro d o dh ch h
    obtain ⟨did, dcid, dpid, dph, ddh, dch, dops, dauth⟩ := d
    cases h
    simp [MerkleChain.verify_delta]

/-- C10 witness: a concrete parentless delta with mismatching hashes and
nonempty ops still verifies. -/
theorem c10_witness :
    MerkleChain.verify_delta
      { id := "d0", coord_id := "c0", parent_id := none, parent_hash := none,
        delta_hash := "aa", chain_hash := "bb",
        ops := [.remove ["x"]], author := none } = .ok () :=
  c10_verify_delta_characterization.2
    { id := "d0", coord_id := "c0", parent_id := none, parent_hash := none,
      delta_hash := "zz", chain_hash := "zz", ops := [], author := none }
    [.remove ["x"]] "aa" "bb" rfl

/-- C9 counterexample: the verify endpoint does NOT respond 404 for a
coordinate with no deltas; it responds 200 with zero counts and a valid
chain, refuting the claim that every coordinate-taking endpoint 404s. -/
theorem c9_counterexample_verify_empty_is_ok :
    Handlers.verify_chain emptyRepo "NOSUCHCOORD" =
      .ok { coord_id := "NOSUCHCOORD", verified_deltas := 0, total_deltas := 0,
            chain_valid := true, first_break := none } ∧
    emptyRepo.deltas "NOSUCHCOORD" = [] := ⟨rfl, rfl⟩

/-- C9 amended: recall and force-snapshot respond 404 (NotFound) whenever the
named coordinate has no deltas, but the verify endpoint responds 200 with
zero counts and chain_valid = true. -/
theorem c9_amended_empty_coordinate_behavior :
    ∀ (repo : Repo) (c : String), repo.deltas c = [] →
      (Handlers.recall_state repo c =
          .error (.notFound ("No deltas found for coordinate: " ++ c)) ∧
        (AppError.notFound ("No deltas found for coordinate: " ++ c)).status = 404) ∧
      Handlers.create_snapshot repo c =
        .error (.notFound ("No deltas found for coordinate: " ++ c)) ∧
      Handlers.verify_chain repo c =
        .ok { coord_id := c, verified_deltas := 0, total_deltas := 0,
              chain_valid := true, first_break := none } := by
  intro repo c h
  refine ⟨⟨?_, rfl⟩, ?_, ?_⟩
  · simp [Handlers.recall_state, h]
  · simp [Handlers.create_snapshot, h]
  · simp [Handlers.verify_chain, h, MerkleChain.verify_chain_integrity,
      MerkleChain.verify_chain_integrity.go]

/-- C9 amended witness at the empty repository. -/
theorem c9_witness :
    Handlers.recall_state emptyRepo "X" =
      .error (.notFound ("No deltas found for coordinate: " ++ "X")) ∧
    (AppError.notFound ("No deltas found for coordinate: " ++ "X")).status = 404 :=
  (c9_amended_empty_coordinate_behavior emptyRepo "X" rfl).1

/-- C2: after the orchestrator appends the object a=1 and then the array [9]
under one coordinate with snapshot interval 2 (so the second append persists
a snapshot whose state is [9]), Recall - which reconstructs from the latest
snapshot plus ALL stored deltas, not just the forward ones - fails (the first
delta's add at path /a cannot apply to the array root), while folding every
delta from the empty object succeeds and returns [9].  The code therefore
violates the reconstruction-agreement property the spec states. -/
theorem c2_recall_with_snapshot_disagrees_with_fold :
    (c2Repo.map fun r =>
      ((r.deltas "C").length, (r.snapshots "C").length,
       exceptIsOk (Handlers.recall_state r "C"),
       Handlers.foldDeltas (r.deltas "C"))) =
    .ok (2, 1, false, .ok (Json.arr [Json.num 9])) := by decide

theorem apply_delta_error_is_deltaCompression {st : Json} {ops : List JsonPatch.PatchOp}
    {e : BmsError} (h : DeltaEngine.apply_delta st ops = .error e) :
    ∃ m, e = .deltaCompression m := by
  unfold DeltaEngine.apply_delta at h
  cases hp : JsonPatch.patch st ops with
  | ok v => rw [hp] at h; cases h
  | error m =>
    rw [hp] at h
    injection h with h
    exact ⟨m, h.symm⟩

theorem foldlM_apply_error {ds : List Delta} :
    ∀ {init : Json} {e : BmsError},
    ds.foldlM (fun st d => DeltaEngine.apply_delta st d.ops) init = .error e →
    ∃ m, e = .deltaCompression m := by
  induction ds with
  | nil =>
    intro init e h
    cases h
  | cons d ds ih =>
    intro init e h
    rw [List.foldlM_cons] at h
    cases ha : DeltaEngine.apply_delta init d.ops with
    | error e2 =>
      rw [ha] at h
      have h2 : e2 = e := by
        simpa [Bind.bind, Except.bind] using h
      rw [← h2]
      exact apply_delta_error_is_deltaCompression ha
    | ok st =>
      rw [ha] at h
      simp only [Bind.bind, Except.bind] at h
      exact ih h

theorem loadState_error {repo : Repo} {c : String} {e : BmsError}
    (h : Handlers.loadState repo c = .error e) : ∃ m, e = .deltaCompression m := by
  unfold Handlers.loadState at h
  cases hs : Handlers.get_latest_snapshot repo c with
  | some snap =>
    rw [hs] at h
    exact foldlM_apply_error h
  | none =>
    rw [hs] at h
    exact foldlM_apply_error h

theorem store_state_error_shape {interval : Nat} {now : UtcTime} {repo : Repo}
    {hint : Option String} {state : Json} {author : Option String} {e : BmsError}
    (h : Handlers.store_state interval now repo hint state author = .error e) :
    ∃ m, e = .deltaCompression m := by
  simp only [Handlers.store_state] at h
  split at h
  · injection h with h2
    subst h2
    exact loadState_error (by assumption)
  · split at h <;> cases h

theorem store_state_ok_coord_id {interval : Nat} {now : UtcTime} {repo : Repo}
    {hint : String} {state : Json} {author : Option String} {r : Repo}
    {resp : StoreResponse}
    (h : Handlers.store_state interval now repo (some hint) state author = .ok (r, resp)) :
    resp.coord_id = hint := by
  simp only [Handlers.store_state] at h
  split at h
  · cases h
  · split at h <;>
      (injection h with h2; injection h2 with h3 h4; rw [← h4])

/-- C7 counterexample: the six-character hint COORD1 is rejected by validate,
yet store_state adopts it verbatim, succeeds, and creates both the coordinate
and a delta - the append does not fail with InvalidCoordinate. -/
theorem c7_counterexample_invalid_hint_accepted :
    CoordinateGenerator.validate "COORD1" =
      .error (.invalidCoordinate "Expected 26 characters, got 6") ∧
    ((Handlers.store_state 128 sampleTime emptyRepo (some "COORD1")
        (.obj [("a", .num 1)]) none).map
      (fun pr => (pr.1.coords, (pr.1.deltas "COORD1").length, pr.2.coord_id))) =
      .ok (["COORD1"], 1, "COORD1") := by
  constructor
  · decide
  · decide

/-- C7 amended: store_state performs no hint validation at all - any hint is
adopted verbatim as the coordinate id and the append never fails with
InvalidCoordinate; validate itself accepts exactly the strings of 26
characters drawn from A-Z and 2-7. -/
theorem c7_amended_hint_adopted_without_validation :
    (∀ (interval : Nat) (now : UtcTime) (repo : Repo) (hint : String) (state : Json)
       (author : Option String) (r : Repo) (resp : StoreResponse),
       Handlers.store_state interval now repo (some hint) state author = .ok (r, resp) →
       resp.coord_id = hint) ∧
    (∀ (interval : Nat) (now : UtcTime) (repo : Repo) (hint : String) (state : Json)
       (author : Option String) (msg : String),
       Handlers.store_state interval now repo (some hint) state author ≠
         .error (.invalidCoordinate msg)) ∧
    (∀ s : String, CoordinateGenerator.validate s = .ok () ↔
       (s.length = 26 ∧ s.data.all CoordinateGenerator.validChar = true)) := by
  refine ⟨fun _ _ _ _ _ _ _ _ h => store_state_ok_coord_id h, ?_, ?_⟩
  · intro interval now repo hint state author msg h
    obtain ⟨m, hm⟩ := store_state_error_shape h
    cases hm
  · intro s
    unfold CoordinateGenerator.validate
    by_cases h26 : s.length = 26
    · by_cases hall : s.data.all CoordinateGenerator.validChar
      · simp [h26, hall]
      · simp [h26, hall]
    · simp [h26]

/-- C7 amended witness: the all-A 26-char string validates, and a concrete
successful hinted append adopted the hint (derived from the theorem). -/
theorem c7_witness :
    CoordinateGenerator.validate "ABCDEFGHIJKLMNOPQRSTUVWXYZ" = .ok () :=
  (c7_amended_hint_adopted_without_validation.2.2 "ABCDEFGHIJKLMNOPQRSTUVWXYZ").mpr
    ⟨by decide, by decide⟩

theorem sha3_256_length (msg : List Nat) : (sha3_256 msg).length = 32 := by
  simp [sha3_256]

theorem catMap_length_const {f : α → List β} {n : Nat} (hf : ∀ a, (f a).length = n) :
    ∀ l : List α, (catMap f l).length = n * l.length := by
  intro l
  induction l with
  | nil => simp [catMap]
  | cons x xs ih =>
    simp [catMap, ih, hf x]
    ring

theorem base32Encode_length (bs : List Nat) :
    (base32Encode bs).length = (8 * bs.length + 4) / 5 := by
  have hbits : (catMap byteBitsN bs).length = 8 * bs.length :=
    catMap_length_const (fun a => by simp [byteBitsN]) bs
  simp [base32Encode, String.length, hbits]

theorem base32Alphabet_valid :
    ∀ c ∈ base32Alphabet, CoordinateGenerator.validChar c = true := by decide

theorem base32Encode_chars_valid (bs : List Nat) :
    ∀ c ∈ (base32Encode bs).data, CoordinateGenerator.validChar c = true := by
  intro c hc
  simp only [base32Encode, String.mk, List.mem_map] at hc
  obtain ⟨i, -, hi⟩ := hc
  rcases Nat.lt_or_ge (chunkVal ((catMap byteBitsN bs).drop (5 * i) |>.take 5) * 2 ^
      (5 - ((catMap byteBitsN bs).drop (5 * i) |>.take 5).length)) base32Alphabet.length
    with hlt | hge
  · refine base32Alphabet_valid c ?_
    rw [← hi, List.getD_eq_getElem _ _ hlt]
    exact List.getElem_mem _
  · rw [← hi, List.getD_eq_default _ _ hge]
    decide

set_option maxRecDepth 100000 in
/-- C6: generate returns the 26-character uppercase RFC-4648 base32 (no
padding) encoding of the first 16 bytes of SHA3-256 of canonical state, a
pipe, and the RFC 3339 timestamp; the timestamp 2025-10-28T12:00:00Z renders
as the hashed string 2025-10-28T12:00:00+00:00; generate is a pure function
(same inputs give the same id), and on the concrete scenario state a=1, b=2
the id evaluates to a fixed 26-char value whose characters all validate. -/
theorem c6_coordinate_derivation :
    (∀ (s : Json) (t : UtcTime),
      CoordinateGenerator.generate s t =
        base32Encode ((sha3_256 (Canonicalizer.canonicalize s ++
          0x7C :: utf8Bytes t.toRfc3339)).take 16)) ∧
    (∀ (s : Json) (t : UtcTime), (CoordinateGenerator.generate s t).length = 26) ∧
    (∀ (s : Json) (t : UtcTime),
      (CoordinateGenerator.generate s t).data.all CoordinateGenerator.validChar = true) ∧
    UtcTime.toRfc3339 ⟨2025, 10, 28, 12, 0, 0⟩ = "2025-10-28T12:00:00+00:00" ∧
    CoordinateGenerator.generate (.obj [("a", .num 1), ("b", .num 2)])
      ⟨2025, 10, 28, 12, 0, 0⟩ = "SS3GUCBUXK6FHRAODV6OLXIMXE" := by
  refine ⟨fun s t => rfl, ?_, ?_, by decide, by decide⟩
  · intro s t
    have h32 := sha3_256_length (Canonicalizer.canonicalize s ++
      0x7C :: utf8Bytes t.toRfc3339)
    rw [CoordinateGenerator.generate, base32Encode_length, List.length_take, h32]
    decide
  · intro s t
    rw [CoordinateGenerator.generate]
    rw [List.all_eq_true]
    exact base32Encode_chars_valid _

/-- Full characterization of a successful store_state: the previous state
loads, exactly one delta (newDelta) is appended for the resolved coordinate,
and the snapshot list grows by the cadence snapshot exactly when
should_snapshot fires on the new count. -/
theorem store_state_ok_cases {interval : Nat} {now : UtcTime} {repo : Repo}
    {hint : Option String} {state : Json} {author : Option String} {r : Repo}
    {resp : StoreResponse}
    (h : Handlers.store_state interval now repo hint state author = .ok (r, resp)) :
    ∃ prev, Handlers.loadState repo resp.coord_id = .ok prev ∧
      resp.coord_id = hint.getD (CoordinateGenerator.generate state now) ∧
      resp.delta_id =
        (Handlers.newDelta (repo.deltas resp.coord_id) resp.coord_id prev state author).id ∧
      r.deltas resp.coord_id = repo.deltas resp.coord_id ++
        [Handlers.newDelta (repo.deltas resp.coord_id) resp.coord_id prev state author] ∧
      (∀ c2, c2 ≠ resp.coord_id → r.deltas c2 = repo.deltas c2) ∧
      resp.snapshot_created =
        SnapshotManager.should_snapshot interval ((repo.deltas resp.coord_id).length + 1) ∧
      (resp.snapshot_created = true →
        r.snapshots resp.coord_id = repo.snapshots resp.coord_id ++
          [SnapshotManager.create_snapshot resp.coord_id resp.delta_id state]) ∧
      (resp.snapshot_created = false → r.snapshots = repo.snapshots) := by
  simp only [Handlers.store_state] at h
  split at h
  · cases h
  · rename_i prev hprev
    split at h <;> rename_i hsnap <;>
      (injection h with h2; injection h2 with h3 h4; subst h3; subst h4)
    · refine ⟨prev, hprev, by cases hint <;> rfl, rfl, by simp [updFun],
        fun c2 hc2 => by simp [updFun, hc2], hsnap.symm, ?_, ?_⟩
      · intro _
        simp [updFun]
      · intro hfalse
        cases hfalse
    · refine ⟨prev, hprev, by cases hint <;> rfl, rfl, by simp [updFun],
        fun c2 hc2 => by simp [updFun, hc2], ?_, ?_, fun _ => rfl⟩
      · simp only [Bool.not_eq_true] at hsnap
        exact hsnap.symm
      · intro htrue
        cases htrue

/-- C8: should_snapshot(n) is true exactly when n mod snapshot_interval = 0
(for a positive interval; the Rust u32 remainder panics on 0), where n counts
the deltas after the new one is persisted; and a successful append reports
snapshot_created exactly when the new count fires the rule, in which case the
persisted snapshot's state is the appended state, its state_hash is the
SHA3-256 of the canonical state bytes, and its head is the new delta. -/
theorem c8_snapshot_cadence :
    (∀ interval n, 0 < interval →
      (SnapshotManager.should_snapshot interval n = true ↔ n % interval = 0)) ∧
    (∀ (interval : Nat) (now : UtcTime) (repo : Repo) (hint : Option String)
       (state : Json) (author : Option String) (r : Repo) (resp : StoreResponse),
      0 < interval →
      Handlers.store_state interval now repo hint state author = .ok (r, resp) →
      ((resp.snapshot_created = true ↔
          ((repo.deltas resp.coord_id).length + 1) % interval = 0) ∧
       (resp.snapshot_created = true →
         ∃ snap, r.snapshots resp.coord_id = repo.snapshots resp.coord_id ++ [snap] ∧
           snap.state = state ∧
           snap.state_hash = hashHex (Canonicalizer.canonicalize state) ∧
           snap.head_delta_id = resp.delta_id))) := by
  constructor
  · intro interval n _
    simp [SnapshotManager.should_snapshot]
  · intro interval now repo hint state author r resp _ h
    obtain ⟨prev, -, -, -, -, -, hcreated, hsnapyes, -⟩ := store_state_ok_cases h
    constructor
    · rw [hcreated]
      simp [SnapshotManager.should_snapshot]
    · intro htrue
      exact ⟨SnapshotManager.create_snapshot resp.coord_id resp.delta_id state,
        hsnapyes htrue, rfl, rfl, rfl⟩

/-- C8 witness: with interval 1, the very first append persists a snapshot. -/
theorem c8_witness :
    0 < 1 ∧ (SnapshotManager.should_snapshot 1 1 = true ↔ 1 % 1 = 0) ∧
    ∃ r resp,
      Handlers.store_state 1 sampleTime emptyRepo (some "W") (Json.obj []) none =
        .ok (r, resp) ∧
      (resp.snapshot_created = true ↔
        ((emptyRepo.deltas resp.coord_id).length + 1) % 1 = 0) := by
  refine ⟨Nat.one_pos, c8_snapshot_cadence.1 1 1 Nat.one_pos, ?_⟩
  cases hok : Handlers.store_state 1 sampleTime emptyRepo (some "W") (Json.obj []) none with
  | error e =>
    exfalso
    have hT : exceptIsOk
        (Handlers.store_state 1 sampleTime emptyRepo (some "W") (Json.obj []) none) =
          true := by decide
    rw [hok] at hT
    simp [exceptIsOk] at hT
  | ok pr =>
    obtain ⟨r0, resp0⟩ := pr
    exact ⟨r0, resp0, rfl,
      (c8_snapshot_cadence.2 1 sampleTime emptyRepo (some "W") (Json.obj []) none r0 resp0
        Nat.one_pos hok).1⟩

theorem vci_go_ok {ds : List Delta}
    (h : ∀ d ∈ ds, MerkleChain.verify_delta d = .ok ()) :
    ∀ k, MerkleChain.verify_chain_integrity.go ds k = (k + ds.length, none) := by
  induction ds with
  | nil => intro k; simp [MerkleChain.verify_chain_integrity.go]
  | cons d rest ih =>
    intro k
    have hd := h d (List.mem_cons_self d rest)
    simp only [MerkleChain.verify_chain_integrity.go, hd]
    rw [ih (fun x hx => h x (List.mem_cons_of_mem _ hx)) (k + 1)]
    simp only [List.length_cons]
    congr 1
    omega

theorem vci_go_none {ds : List Delta} :
    ∀ {k x}, MerkleChain.verify_chain_integrity.go ds k = (x, none) →
    ∀ d ∈ ds, MerkleChain.verify_delta d = .ok () := by
  induction ds with
  | nil => intro k x _ d hd; cases hd
  | cons d rest ih =>
    intro k x h d2 hd2
    cases hv : MerkleChain.verify_delta d with
    | error e2 =>
      simp only [MerkleChain.verify_chain_integrity.go, hv] at h
      simp only [Prod.mk.injEq, reduceCtorEq, and_false] at h
    | ok u =>
      rcases List.mem_cons.mp hd2 with rfl | hm
      · cases u; exact hv
      · simp only [MerkleChain.verify_chain_integrity.go, hv] at h
        exact ih h d2 hm

theorem vci_go_break {i : Nat} {e : BmsError} :
    ∀ {ds : List Delta} {k},
    (∀ j (hj : j < ds.length), j < i → MerkleChain.verify_delta (ds.get ⟨j, hj⟩) = .ok ()) →
    ∀ (hi : i < ds.length), MerkleChain.verify_delta (ds.get ⟨i, hi⟩) = .error e →
    MerkleChain.verify_chain_integrity.go ds k = (k + i, some e) := by
  induction i with
  | zero =>
    intro ds k hpre hi he
    cases ds with
    | nil => cases hi
    | cons d rest =>
      simp only [List.get] at he
      simp [MerkleChain.verify_chain_integrity.go, he]
  | succ i ih =>
    intro ds k hpre hi he
    cases ds with
    | nil => cases hi
    | cons d rest =>
      have hd : MerkleChain.verify_delta d = .ok () :=
        hpre 0 (by simp) (Nat.succ_pos i)
      simp only [MerkleChain.verify_chain_integrity.go, hd]
      have hrest := @ih rest (k + 1)
        (fun j hj hji => hpre (j + 1) (by simpa using Nat.succ_lt_succ hj)
          (Nat.succ_lt_succ hji))
        (Nat.lt_of_succ_lt_succ hi) he
      rw [hrest]
      congr 1
      omega

theorem vci_intact_elems {ds : List Delta}
    (h : MerkleChain.verify_chain_integrity ds = (ds.length, none)) :
    ∀ d ∈ ds, MerkleChain.verify_delta d = .ok () :=
  vci_go_none h

theorem vci_of_all_ok {ds : List Delta}
    (h : ∀ d ∈ ds, MerkleChain.verify_delta d = .ok ()) :
    MerkleChain.verify_chain_integrity ds = (ds.length, none) := by
  have := vci_go_ok h 0
  simpa [MerkleChain.verify_chain_integrity] using this

/-- A verifying delta with a parent links correctly. -/
theorem verify_delta_ok_link {d : Delta}
    (h : MerkleChain.verify_delta d = .ok ()) (hpar : d.parent_id ≠ none) :
    ∃ ph, d.parent_hash = some ph ∧
      MerkleChain.compute_chain_hash ph d.delta_hash = d.chain_hash := by
  unfold MerkleChain.verify_delta at h
  cases hpid : d.parent_id with
  | none => exact absurd hpid hpar
  | some pid =>
    rw [hpid] at h
    cases hph : d.parent_hash with
    | none => rw [hph] at h; cases h
    | some ph =>
      rw [hph] at h
      refine ⟨ph, rfl, ?_⟩
      by_cases hne : MerkleChain.compute_chain_hash ph d.delta_hash ≠ d.chain_hash
      · simp [hne] at h
      · exact not_not.mp hne

/-- C1 (amended): on a chain that verifies intact, (a) mutating the
chain_hash of a delta that has a parent to any different value, or its
delta_hash / parent_hash to values breaking the link equation, makes
verify_chain_integrity report the break exactly at the mutated index; but
(b) mutating ops is never detected, and (c) any mutation of a parentless
delta that keeps parent_id == None is never detected (the chain still
verifies in full). -/
theorem c1_tamper_detection_amended (c : List Delta) (i : Nat) (h : i < c.length)
    (hintact : MerkleChain.verify_chain_integrity c = (c.length, none)) :
    (∀ d2 : Delta, (c.get ⟨i, h⟩).parent_id ≠ none →
      ((∃ h2, h2 ≠ (c.get ⟨i, h⟩).chain_hash ∧
          d2 = { c.get ⟨i, h⟩ with chain_hash := h2 }) ∨
       (∃ h2, (∀ ph, (c.get ⟨i, h⟩).parent_hash = some ph →
            MerkleChain.compute_chain_hash ph h2 ≠ (c.get ⟨i, h⟩).chain_hash) ∧
          d2 = { c.get ⟨i, h⟩ with delta_hash := h2 }) ∨
       (∃ h2, MerkleChain.compute_chain_hash h2 (c.get ⟨i, h⟩).delta_hash ≠
            (c.get ⟨i, h⟩).chain_hash ∧
          d2 = { c.get ⟨i, h⟩ with parent_hash := some h2 })) →
      ∃ e, MerkleChain.verify_chain_integrity (c.set i d2) = (i, some e)) ∧
    (∀ ops2, MerkleChain.verify_chain_integrity
        (c.set i { c.get ⟨i, h⟩ with ops := ops2 }) = (c.length, none)) ∧
    ((c.get ⟨i, h⟩).parent_id = none → ∀ d3 : Delta, d3.parent_id = none →
      MerkleChain.verify_chain_integrity (c.set i d3) = (c.length, none)) := by
  have hall := vci_intact_elems hintact
  have hok : MerkleChain.verify_delta (c.get ⟨i, h⟩) = .ok () :=
    hall _ (c.get_mem i h)
  have hfail : ∀ (d2 : Delta) (ph : String), d2.parent_hash = some ph →
      d2.parent_id ≠ none →
      MerkleChain.compute_chain_hash ph d2.delta_hash ≠ d2.chain_hash →
      MerkleChain.verify_delta d2 =
        .error (.hashMismatch (MerkleChain.compute_chain_hash ph d2.delta_hash)
          d2.chain_hash) := by
    intro d2 ph hph hpid hne
    unfold MerkleChain.verify_delta
    cases hpid2 : d2.parent_id with
    | none => exact absurd hpid2 hpid
    | some pid =>
      rw [hph]
      simp [hne]
  have hsetbreak : ∀ (d2 : Delta) (e : BmsError),
      MerkleChain.verify_delta d2 = .error e →
      MerkleChain.verify_chain_integrity (c.set i d2) = (i, some e) := by
    intro d2 e he
    have hi2 : i < (c.set i d2).length := by rw [List.length_set]; exact h
    have hpre : ∀ j (hj : j < (c.set i d2).length), j < i →
        MerkleChain.verify_delta ((c.set i d2).get ⟨j, hj⟩) = .ok () := by
      intro j hj hji
      have hjc : j < c.length := by rw [List.length_set] at hj; exact hj
      have hj2 : (c.set i d2).get ⟨j, hj⟩ = c.get ⟨j, hjc⟩ := by
        simp only [List.get_eq_getElem, List.getElem_set]
        rw [if_neg (by omega)]
      rw [hj2]
      exact hall _ (c.get_mem j hjc)
    have hat : (c.set i d2).get ⟨i, hi2⟩ = d2 := by
      simp [List.get_eq_getElem, List.getElem_set]
    have := @vci_go_break i e (c.set i d2) 0 hpre hi2 (by rw [hat]; exact he)
    simpa [MerkleChain.verify_chain_integrity] using this
  refine ⟨?_, ?_, ?_⟩
  · rintro d2 hpar (⟨h2, hne2, rfl⟩ | ⟨h2, hne2, rfl⟩ | ⟨h2, hne2, rfl⟩)
    · obtain ⟨ph, hph, hlink⟩ := verify_delta_ok_link hok hpar
      have hne3 : MerkleChain.compute_chain_hash ph
          ({ c.get ⟨i, h⟩ with chain_hash := h2 } : Delta).delta_hash ≠
          ({ c.get ⟨i, h⟩ with chain_hash := h2 } : Delta).chain_hash := by
        have hup : ({ c.get ⟨i, h⟩ with chain_hash := h2 } : Delta).chain_hash = h2 := rfl
        have hud : ({ c.get ⟨i, h⟩ with chain_hash := h2 } : Delta).delta_hash =
            (c.get ⟨i, h⟩).delta_hash := rfl
        intro hcontra
        rw [hud, hup, hlink] at hcontra
        exact hne2 hcontra.symm
      have he := hfail ({ c.get ⟨i, h⟩ with chain_hash := h2 }) ph hph hpar hne3
      exact ⟨_, hsetbreak _ _ he⟩
    · obtain ⟨ph, hph, hlink⟩ := verify_delta_ok_link hok hpar
      have he := hfail ({ c.get ⟨i, h⟩ with delta_hash := h2 }) ph hph hpar (hne2 ph hph)
      exact ⟨_, hsetbreak _ _ he⟩
    · have he := hfail ({ c.get ⟨i, h⟩ with parent_hash := some h2 }) h2 rfl hpar hne2
      exact ⟨_, hsetbreak _ _ he⟩
  · intro ops2
    have hlen : (c.set i { c.get ⟨i, h⟩ with ops := ops2 }).length = c.length :=
      List.length_set c i _
    have h1 : MerkleChain.verify_chain_integrity
        (c.set i { c.get ⟨i, h⟩ with ops := ops2 }) =
        ((c.set i { c.get ⟨i, h⟩ with ops := ops2 }).length, none) := by
      refine vci_of_all_ok ?_
      intro d hd
      rcases List.mem_or_eq_of_mem_set hd with hm | rfl
      · exact hall _ hm
      · exact hok
    rw [hlen] at h1
    exact h1
  · intro hnone d3 hd3
    have hlen : (c.set i d3).length = c.length := List.length_set c i _
    have h1 : MerkleChain.verify_chain_integrity (c.set i d3) =
        ((c.set i d3).length, none) := by
      refine vci_of_all_ok ?_
      intro d hd
      rcases List.mem_or_eq_of_mem_set hd with hm | rfl
      · exact hall _ hm
      · simp [MerkleChain.verify_delta, hd3]
    rw [hlen] at h1
    exact h1

set_option maxRecDepth 100000 in
/-- C1 counterexample: a one-delta chain built by the orchestrator verifies
intact, and after mutating the single delta's ops (from one operation to
none) verify_chain_integrity still reports the full chain intact with no
break point - there is no break at or before the mutated index 0.
verify_delta never looks at ops, and a parentless delta is never checked. -/
theorem c1_counterexample_ops_mutation_undetected :
    ((Handlers.store_state 128 sampleTime emptyRepo (some "C")
        (.obj [("a", .num 1)]) none).map
      (fun pr =>
        (MerkleChain.verify_chain_integrity (pr.1.deltas "C"),
         MerkleChain.verify_chain_integrity
           ((pr.1.deltas "C").map (fun d : Delta => { d with ops := [] })),
         (pr.1.deltas "C").map (fun d : Delta => d.ops.length)))) =
      .ok ((1, none), (1, none), [1]) := by decide

set_option maxRecDepth 100000 in
/-- C1 amended witness: a concrete intact two-delta chain; mutating the
second delta's chain_hash to the string 00 is reported as a break at index 1. -/
theorem c1_witness :
    ∃ e, MerkleChain.verify_chain_integrity
      ([⟨"d1", "c1", none, none, "h1", "h1", [], none⟩,
        ⟨"d2", "c1", some "d1", some "h1", "h2",
          MerkleChain.compute_chain_hash "h1" "h2", [], none⟩].set 1
        { (⟨"d2", "c1", some "d1", some "h1", "h2",
            MerkleChain.compute_chain_hash "h1" "h2", [], none⟩ : Delta) with
          chain_hash := "00" }) = (1, some e) :=
  (c1_tamper_detection_amended
    [⟨"d1", "c1", none, none, "h1", "h1", [], none⟩,
     ⟨"d2", "c1", some "d1", some "h1", "h2",
       MerkleChain.compute_chain_hash "h1" "h2", [], none⟩]
    1 (by decide) (by decide)).1
    _ (by decide) (Or.inl ⟨"00", by decide, rfl⟩)

/-- Extending a chain satisfying the link invariant with a delta linked to
its last element (or parentless on an empty chain) preserves the invariant. -/
theorem chainInv_append {ds : List Delta} {d : Delta} (hInv : ChainInv ds)
    (h1 : ds = [] → d.parent_id = none ∧ d.parent_hash = none ∧
      d.chain_hash = d.delta_hash)
    (h2 : ∀ last, ds.getLast? = some last →
      d.parent_id = some last.id ∧ d.parent_hash = some last.chain_hash ∧
      d.chain_hash = MerkleChain.compute_chain_hash last.chain_hash d.delta_hash) :
    ChainInv (ds ++ [d]) := by
  intro i hi
  have hi2 : i < ds.length + 1 := by simpa using hi
  by_cases hilt : i < ds.length
  · have hget : (ds ++ [d]).get ⟨i, hi⟩ = ds.get ⟨i, hilt⟩ := by
      simp only [List.get_eq_getElem]
      exact List.getElem_append_left hilt
    rw [hget]
    exact hInv i hilt
  · have hieq : i = ds.length := by omega
    subst hieq
    have hget : (ds ++ [d]).get ⟨ds.length, hi⟩ = d := by
      simp [List.get_eq_getElem]
    rw [hget]
    cases hlast : ds.getLast? with
    | none =>
      have hnil : ds = [] := List.getLast?_eq_none_iff.mp hlast
      subst hnil
      obtain ⟨hp, hh, hc⟩ := h1 rfl
      refine ⟨by simp [hp, hh], by simp [hp], fun _ => hc, ?_⟩
      intro ph hph
      rw [hh] at hph
      cases hph
    | some last =>
      obtain ⟨hp, hh, hc⟩ := h2 last hlast
      have hne : ds ≠ [] := by
        intro hnil
        subst hnil
        cases hlast
      have hlen : 0 < ds.length := List.length_pos.mpr hne
      refine ⟨by simp [hp, hh], ?_, fun h0 => absurd h0 (by omega), ?_⟩
      · constructor
        · intro hx
          rw [hp] at hx
          cases hx
        · intro hx
          exact absurd hx (by omega)
      intro ph hph
      rw [hh] at hph
      injection hph with hph
      rw [hph] at hc
      exact hc

/-- newDelta links the new delta to the last element of the given chain. -/
theorem newDelta_link (deltas : List Delta) (cid : String) (prev state : Json)
    (author : Option String) :
    ((deltas = [] →
      (Handlers.newDelta deltas cid prev state author).parent_id = none ∧
      (Handlers.newDelta deltas cid prev state author).parent_hash = none ∧
      (Handlers.newDelta deltas cid prev state author).chain_hash =
        (Handlers.newDelta deltas cid prev state author).delta_hash)) ∧
    (∀ last, deltas.getLast? = some last →
      (Handlers.newDelta deltas cid prev state author).parent_id = some last.id ∧
      (Handlers.newDelta deltas cid prev state author).parent_hash =
        some last.chain_hash ∧
      (Handlers.newDelta deltas cid prev state author).chain_hash =
        MerkleChain.compute_chain_hash last.chain_hash
          (Handlers.newDelta deltas cid prev state author).delta_hash) := by
  constructor
  · intro hnil
    subst hnil
    exact ⟨rfl, rfl, rfl⟩
  · intro last hlast
    simp [Handlers.newDelta, hlast]

/-- A chain satisfying the link invariant verifies delta by delta. -/
theorem chainInv_all_ok {ds : List Delta} (hInv : ChainInv ds) :
    ∀ d ∈ ds, MerkleChain.verify_delta d = .ok () := by
  intro d hd
  obtain ⟨i, hget⟩ := List.mem_iff_get.mp hd
  obtain ⟨hiff, -, -, hlink⟩ := hInv i.1 i.2
  simp only [List.get_eq_getElem] at hiff hlink hget
  rw [← hget]
  cases hpid : ds[i.1].parent_id with
  | none => simp [MerkleChain.verify_delta, hpid]
  | some pid =>
    cases hph : ds[i.1].parent_hash with
    | none =>
      rw [hiff.mpr hph] at hpid
      cases hpid
    | some ph =>
      have hc := hlink ph hph
      unfold MerkleChain.verify_delta
      rw [hpid, hph]
      simp [hc]

theorem verify_chain_ok_of_all {ds : List Delta}
    (h : ∀ d ∈ ds, MerkleChain.verify_delta d = .ok ()) :
    MerkleChain.verify_chain ds = .ok () := by
  induction ds with
  | nil => rfl
  | cons d rest ih =>
    have hd := h d (List.mem_cons_self d rest)
    simp only [MerkleChain.verify_chain, hd]
    exact ih (fun x hx => h x (List.mem_cons_of_mem _ hx))

/-- One successful hinted append extends the hinted coordinate's chain while
preserving the link invariant. -/
theorem store_state_preserves_chainInv {interval : Nat} {now : UtcTime} {r0 r1 : Repo}
    {cid : String} {state : Json} {resp : StoreResponse}
    (hok : Handlers.store_state interval now r0 (some cid) state none = .ok (r1, resp))
    (hInv : ChainInv (r0.deltas cid)) : ChainInv (r1.deltas cid) := by
  obtain ⟨prev, -, hcid, -, hdeltas, -, -, -, -⟩ := store_state_ok_cases hok
  rw [Option.getD_some] at hcid
  rw [← hcid] at hInv ⊢
  rw [hdeltas]
  have hlink := newDelta_link (r0.deltas resp.coord_id) resp.coord_id prev state none
  exact chainInv_append hInv hlink.1 hlink.2

/-- C3: every delta emitted by the orchestrator's append satisfies the
chain-link invariant - parent_id is None iff parent_hash is None iff it is
the first delta of its coordinate; a first delta has chain_hash = delta_hash
and otherwise chain_hash = SHA3-256 over the concatenated hex-string bytes of
parent_hash and delta_hash - and any chain so built passes verify_chain. -/
theorem c3_chain_invariant_and_soundness (interval : Nat) (now : UtcTime)
    (cid : String) (states : List Json) (repo : Repo)
    (h : Handlers.appendMany interval now cid states = .ok repo) :
    ChainInv (repo.deltas cid) ∧
    MerkleChain.verify_chain (repo.deltas cid) = .ok () ∧
    (∀ i (hi : i < (repo.deltas cid).length) (ph : String),
      ((repo.deltas cid).get ⟨i, hi⟩).parent_hash = some ph →
      ((repo.deltas cid).get ⟨i, hi⟩).chain_hash =
        hashHex (utf8Bytes ph ++
          utf8Bytes ((repo.deltas cid).get ⟨i, hi⟩).delta_hash)) := by
  have hmain : ChainInv (repo.deltas cid) := by
    have hgen : ∀ (sts : List Json) (r0 rN : Repo), ChainInv (r0.deltas cid) →
        sts.foldlM (fun rp s =>
          (Handlers.store_state interval now rp (some cid) s none).map Prod.fst) r0 =
          .ok rN →
        ChainInv (rN.deltas cid) := by
      intro sts
      induction sts with
      | nil =>
        intro r0 rN hInv hfold
        injection hfold with hfold
        rw [← hfold]
        exact hInv
      | cons s rest ih =>
        intro r0 rN hInv hfold
        rw [List.foldlM_cons] at hfold
        cases hs : Handlers.store_state interval now r0 (some cid) s none with
        | error e =>
          rw [hs] at hfold
          simp [Except.map, Bind.bind, Except.bind] at hfold
        | ok pr =>
          obtain ⟨r1, resp⟩ := pr
          rw [hs] at hfold
          simp only [Except.map, Bind.bind, Except.bind] at hfold
          exact ih r1 rN (store_state_preserves_chainInv hs hInv) hfold
    exact hgen states emptyRepo repo (fun i hi => by cases hi) h
  refine ⟨hmain, verify_chain_ok_of_all (chainInv_all_ok hmain), ?_⟩
  intro i hi ph hph
  exact (hmain i hi).2.2.2 ph hph

/-- C3 witness: two concrete appends produce a chain that verifies. -/
theorem c3_witness :
    ∃ repo, Handlers.appendMany 128 sampleTime "C"
      [Json.obj [("a", Json.num 1)], Json.obj [("a", Json.num 2)]] = .ok repo ∧
      MerkleChain.verify_chain (repo.deltas "C") = .ok () := by
  cases hok : Handlers.appendMany 128 sampleTime "C"
      [Json.obj [("a", Json.num 1)], Json.obj [("a", Json.num 2)]] with
  | error e =>
    exfalso
    have hT : exceptIsOk (Handlers.appendMany 128 sampleTime "C"
        [Json.obj [("a", Json.num 1)], Json.obj [("a", Json.num 2)]]) = true := by decide
    rw [hok] at hT
    simp [exceptIsOk] at hT
  | ok repo =>
    exact ⟨repo, rfl,
      (c3_chain_invariant_and_soundness 128 sampleTime "C"
        [Json.obj [("a", Json.num 1)], Json.obj [("a", Json.num 2)]] repo hok).2.1⟩

theorem charsLt_trans : ∀ {a b c : List Char},
    charsLt a b = true → charsLt b c = true → charsLt a c = true := by
  intro a
  induction a with
  | nil =>
    intro b c hab hbc
    cases b with
    | nil => cases hab
    | cons y ys =>
      cases c with
      | nil => cases hbc
      | cons z zs => rfl
  | cons x xs ih =>
    intro b c hab hbc
    cases b with
    | nil => cases hab
    | cons y ys =>
      cases c with
      | nil => cases hbc
      | cons z zs =>
        simp only [charsLt] at hab hbc ⊢
        by_cases hxy : x.toNat < y.toNat
        · by_cases hyz : y.toNat < z.toNat
          · rw [if_pos (by omega)]
          · rw [if_neg hyz] at hbc
            by_cases hzy : z.toNat < y.toNat
            · rw [if_pos hzy] at hbc; cases hbc
            · rw [if_pos (by omega)]
        · rw [if_neg hxy] at hab
          by_cases hyx : y.toNat < x.toNat
          · rw [if_pos hyx] at hab; cases hab
          · rw [if_neg hyx] at hab
            by_cases hyz : y.toNat < z.toNat
            · rw [if_pos (by omega)]
            · rw [if_neg hyz] at hbc
              by_cases hzy : z.toNat < y.toNat
              · rw [if_pos hzy] at hbc; cases hbc
              · rw [if_neg hzy] at hbc
                rw [if_neg (by omega), if_neg (by omega)]
                exact ih hab hbc

theorem charsLt_conn : ∀ {a b : List Char},
    charsLt a b = false → charsLt b a = false → a = b := by
  intro a
  induction a with
  | nil =>
    intro b hab _
    cases b with
    | nil => rfl
    | cons y ys => cases hab
  | cons x xs ih =>
    intro b hab hba
    cases b with
    | nil => cases hba
    | cons y ys =>
      simp only [charsLt] at hab hba
      by_cases hxy : x.toNat < y.toNat
      · rw [if_pos hxy] at hab; cases hab
      · by_cases hyx : y.toNat < x.toNat
        · rw [if_pos hyx] at hba; cases hba
        · rw [if_neg hxy, if_neg hyx] at hab
          rw [if_neg hyx, if_neg hxy] at hba
          have hn : x.toNat = y.toNat := by omega
          have hx : x = y :=
            Char.ofNat_toNat x ▸ Char.ofNat_toNat y ▸ congrArg Char.ofNat hn
          rw [hx, ih hab hba]

theorem charsLt_irrefl : ∀ a : List Char, charsLt a a = false := by
  intro a
  induction a with
  | nil => rfl
  | cons x xs ih =>
    simp only [charsLt]
    rw [if_neg (lt_irrefl x.toNat), if_neg (lt_irrefl x.toNat)]
    exact ih

theorem charsLt_asymm : ∀ {a b : List Char},
    charsLt a b = true → charsLt b a = false := by
  intro a b hab
  cases hba : charsLt b a with
  | false => rfl
  | true =>
    have h1 := charsLt_trans hab hba
    have h2 := charsLt_irrefl a
    rw [h1] at h2
    cases h2

theorem stringExt {s t : String} (h : s.data = t.data) : s = t := by
  cases s
  cases t
  exact congrArg String.mk (by simpa using h)

theorem fieldLe_of_not {p q : String × Json} (h : fieldLe p q = false) :
    fieldLe q p = true := by
  simp only [fieldLe] at h ⊢
  have h2 : charsLt q.1.data p.1.data = true := by
    cases hc : charsLt q.1.data p.1.data with
    | true => rfl
    | false => rw [hc] at h; cases h
  rw [charsLt_asymm h2]
  rfl

theorem fieldLe_trans {p q r : String × Json} (h1 : fieldLe p q = true)
    (h2 : fieldLe q r = true) : fieldLe p r = true := by
  simp only [fieldLe, Bool.not_eq_true'] at h1 h2 ⊢
  cases hrp : charsLt r.1.data p.1.data with
  | false => rfl
  | true =>
    cases hpq : charsLt p.1.data q.1.data with
    | true =>
      have h3 := charsLt_trans hrp hpq
      rw [h3] at h2
      cases h2
    | false =>
      have hpq2 : p.1.data = q.1.data := charsLt_conn hpq h1
      rw [← hpq2, hrp] at h2
      cases h2

theorem insertField_perm (p : String × Json) :
    ∀ l, (insertField p l).Perm (p :: l) := by
  intro l
  induction l with
  | nil => exact List.Perm.refl _
  | cons q rest ih =>
    simp only [insertField]
    by_cases h : fieldLe p q = true
    · rw [if_pos h]
    · rw [if_neg h]
      exact (List.Perm.cons q ih).trans (List.Perm.swap p q rest)

theorem sortFields_perm : ∀ l, (sortFields l).Perm l := by
  intro l
  induction l with
  | nil => exact List.Perm.refl _
  | cons p rest ih =>
    exact (insertField_perm p (sortFields rest)).trans (List.Perm.cons p ih)

theorem insertField_sorted {p : String × Json} {l : List (String × Json)}
    (hs : l.Pairwise (fun a b => fieldLe a b = true)) :
    (insertField p l).Pairwise (fun a b => fieldLe a b = true) := by
  induction l with
  | nil => simp [insertField]
  | cons q rest ih =>
    simp only [insertField]
    by_cases h : fieldLe p q = true
    · rw [if_pos h]
      refine List.Pairwise.cons ?_ hs
      intro b hb
      rcases List.mem_cons.mp hb with rfl | hm
      · exact h
      · exact fieldLe_trans h (List.rel_of_pairwise_cons hs hm)
    · rw [if_neg h]
      have hqp : fieldLe q p = true := fieldLe_of_not (by simpa using h)
      refine List.Pairwise.cons ?_ (ih hs.of_cons)
      intro b hb
      have hb2 := (insertField_perm p rest).mem_iff.mp hb
      rcases List.mem_cons.mp hb2 with rfl | hm
      · exact hqp
      · exact List.rel_of_pairwise_cons hs hm

theorem sortFields_sorted : ∀ l : List (String × Json),
    (sortFields l).Pairwise (fun a b => fieldLe a b = true) := by
  intro l
  induction l with
  | nil => exact List.Pairwise.nil
  | cons p rest ih => exact insertField_sorted ih

theorem distinctKeys_pairwise : ∀ {fs : List (String × Json)},
    distinctKeys fs = true ↔ fs.Pairwise (fun a b => a.1 ≠ b.1) := by
  intro fs
  induction fs with
  | nil => simp [distinctKeys]
  | cons f rest ih =>
    obtain ⟨k, v⟩ := f
    simp only [distinctKeys, Bool.and_eq_true, Bool.not_eq_true', List.pairwise_cons]
    rw [← ih]
    constructor
    · intro h
      refine ⟨?_, h.2⟩
      intro b hb
      intro hkb
      have : rest.any (fun q => q.1 == k) = true :=
        List.any_eq_true.mpr ⟨b, hb, by simp [hkb]⟩
      rw [this] at h
      cases h.1
    · intro h
      refine ⟨?_, h.2⟩
      cases hany : rest.any (fun q => q.1 == k) with
      | false => rfl
      | true =>
        obtain ⟨b, hb, hbk⟩ := List.any_eq_true.mp hany
        exact absurd (Eq.symm (by simpa using hbk : b.1 = k)) (h.1 b hb)

theorem sortFields_eq_of_perm {l1 l2 : List (String × Json)} (hp : l1.Perm l2)
    (hnd : l1.Pairwise (fun a b => a.1 ≠ b.1)) :
    sortFields l1 = sortFields l2 := by
  haveI : IsAntisymm (String × Json) (fun a b => fieldLe a b = true ∧ a.1 ≠ b.1) := by
    constructor
    intro a b h1 h2
    exfalso
    have ha : charsLt b.1.data a.1.data = false := by
      have h3 := h1.1
      simpa [fieldLe, Bool.not_eq_true'] using h3
    have hb : charsLt a.1.data b.1.data = false := by
      have h3 := h2.1
      simpa [fieldLe, Bool.not_eq_true'] using h3
    have hd : a.1.data = b.1.data := charsLt_conn hb ha
    exact h1.2 (stringExt hd)
  have hnd2 : l2.Pairwise (fun a b => a.1 ≠ b.1) :=
    (hp.pairwise_iff (fun h => Ne.symm h)).mp hnd
  have hs1 : (sortFields l1).Pairwise (fun a b => fieldLe a b = true ∧ a.1 ≠ b.1) :=
    List.Pairwise.and (sortFields_sorted l1)
      (((sortFields_perm l1).pairwise_iff (fun h => Ne.symm h)).mpr hnd)
  have hs2 : (sortFields l2).Pairwise (fun a b => fieldLe a b = true ∧ a.1 ≠ b.1) :=
    List.Pairwise.and (sortFields_sorted l2)
      (((sortFields_perm l2).pairwise_iff (fun h => Ne.symm h)).mpr hnd2)
  exact List.eq_of_perm_of_sorted
    ((sortFields_perm l1).trans (hp.trans (sortFields_perm l2).symm)) hs1 hs2

theorem goFields_eq_map : ∀ fs : List (String × Json),
    sortValue.goFields fs = fs.map (fun kv => (kv.1, sortValue kv.2)) := by
  intro fs
  induction fs with
  | nil => rfl
  | cons f rest ih =>
    obtain ⟨k, v⟩ := f
    simp [sortValue.goFields, ih]

theorem goList_eq_map : ∀ xs : List Json,
    sortValue.goList xs = xs.map sortValue := by
  intro xs
  induction xs with
  | nil => rfl
  | cons x rest ih => simp [sortValue.goList, ih]

theorem uniq_goList_iff : ∀ xs : List Json,
    (Json.uniq.goList xs = true ↔ ∀ x ∈ xs, Json.uniq x = true) := by
  intro xs
  induction xs with
  | nil => simp [Json.uniq.goList]
  | cons x rest ih =>
    simp only [Json.uniq.goList, Bool.and_eq_true, ih, List.mem_cons]
    constructor
    · rintro ⟨h1, h2⟩ y (rfl | hm)
      · exact h1
      · exact h2 y hm
    · intro h
      exact ⟨h x (Or.inl rfl), fun y hy => h y (Or.inr hy)⟩

theorem uniq_goFields_iff : ∀ fs : List (String × Json),
    (Json.uniq.goFields fs = true ↔ ∀ kv ∈ fs, Json.uniq (Prod.snd kv) = true) := by
  intro fs
  induction fs with
  | nil => simp [Json.uniq.goFields]
  | cons f rest ih =>
    obtain ⟨k, v⟩ := f
    simp only [Json.uniq.goFields, Bool.and_eq_true, ih, List.mem_cons]
    constructor
    · rintro ⟨h1, h2⟩ y (rfl | hm)
      · exact h1
      · exact h2 y hm
    · intro h
      exact ⟨h (k, v) (Or.inl rfl), fun y hy => h y (Or.inr hy)⟩

/-- Key-order permutation is invisible to canonical normalization (on values
whose objects have unique keys). -/
theorem keyPerm_sortValue : ∀ v w : Json, Json.uniq v = true → KeyPerm v w →
    sortValue v = sortValue w := by
  intro v
  induction v using Json.ind with
  | hnull =>
    intro w _ hkp
    cases w <;> cases hkp <;> rfl
  | hbool b =>
    intro w _ hkp
    cases w <;> cases hkp <;> rfl
  | hnum n =>
    intro w _ hkp
    cases w <;> cases hkp <;> rfl
  | hstr s =>
    intro w _ hkp
    cases w <;> cases hkp <;> rfl
  | harr xs ih =>
    intro w hu hkp
    cases w with
    | arr ys =>
      have hkl : KeyPerm.kpList xs ys := hkp
      have hux : ∀ x ∈ xs, Json.uniq x = true :=
        (uniq_goList_iff xs).mp (by simpa [Json.uniq] using hu)
      have hgo : sortValue.goList xs = sortValue.goList ys := by
        clear hkp hu
        induction xs generalizing ys with
        | nil =>
          cases ys with
          | nil => rfl
          | cons y ys2 => cases hkl
        | cons x xs2 ihl =>
          cases ys with
          | nil => cases hkl
          | cons y ys2 =>
            obtain ⟨hxy, hrest⟩ := hkl
            simp only [sortValue.goList]
            rw [ih x (List.mem_cons_self x xs2) y (hux x (List.mem_cons_self x xs2)) hxy,
              ihl (fun z hz => ih z (List.mem_cons_of_mem _ hz)) ys2 hrest
                (fun z hz => hux z (List.mem_cons_of_mem _ hz))]
      simp [sortValue, hgo]
    | null => cases hkp
    | bool b => cases hkp
    | num n => cases hkp
    | str s => cases hkp
    | obj gs => cases hkp
  | hobj fs ih =>
    intro w hu hkp
    cases w with
    | obj gs =>
      obtain ⟨gs0, hperm, hfields⟩ := hkp
      have hu2 : distinctKeys fs = true ∧ Json.uniq.goFields fs = true := by
        simpa [Json.uniq, Bool.and_eq_true] using hu
      have hvals : ∀ kv ∈ fs, Json.uniq (Prod.snd kv) = true :=
        (uniq_goFields_iff fs).mp hu2.2
      have hpt : sortValue.goFields fs = sortValue.goFields gs0 := by
        clear hperm hu hu2
        induction fs generalizing gs0 with
        | nil =>
          cases gs0 with
          | nil => rfl
          | cons g gs1 => obtain ⟨l, w2⟩ := g; cases hfields
        | cons f fs2 ihl =>
          obtain ⟨k, v⟩ := f
          cases gs0 with
          | nil => cases hfields
          | cons g gs1 =>
            obtain ⟨l, w2⟩ := g
            obtain ⟨hkl, hvw, hrest⟩ := hfields
            subst hkl
            simp only [sortValue.goFields]
            rw [ih (k, v) (List.mem_cons_self _ fs2) w2
                (hvals (k, v) (List.mem_cons_self _ fs2)) hvw,
              ihl (fun z hz => ih z (List.mem_cons_of_mem _ hz)) gs1 hrest
                (fun z hz => hvals z (List.mem_cons_of_mem _ hz))]
      have hmperm : (sortValue.goFields gs0).Perm (sortValue.goFields gs) := by
        rw [goFields_eq_map, goFields_eq_map]
        exact hperm.map _
      have hnd : (sortValue.goFields fs).Pairwise (fun a b => a.1 ≠ b.1) := by
        rw [goFields_eq_map]
        refine List.Pairwise.map _ ?_ (distinctKeys_pairwise.mp hu2.1)
        intro a b hab
        exact hab
      have heq : sortFields (sortValue.goFields fs) =
          sortFields (sortValue.goFields gs) := by
        rw [hpt] at hnd ⊢
        exact sortFields_eq_of_perm hmperm hnd
      simp [sortValue, heq]
    | null => cases hkp
    | bool b => cases hkp
    | num n => cases hkp
    | str s => cases hkp
    | arr ys => cases hkp

theorem pairwise_sortedKeysB {l : List (String × Json)}
    (h : l.Pairwise (fun a b => fieldLe a b = true)) : sortedKeysB l = true := by
  induction h with
  | nil => rfl
  | cons hrel hpw ih =>
    rename_i a l2
    cases l2 with
    | nil => rfl
    | cons b l3 =>
      simp only [sortedKeysB, Bool.and_eq_true]
      exact ⟨hrel b (List.mem_cons_self b l3), ih⟩

theorem keysSorted_goList_iff : ∀ xs : List Json,
    (Json.keysSorted.goList xs = true ↔ ∀ x ∈ xs, Json.keysSorted x = true) := by
  intro xs
  induction xs with
  | nil => simp [Json.keysSorted.goList]
  | cons x rest ih =>
    simp only [Json.keysSorted.goList, Bool.and_eq_true, ih, List.mem_cons]
    constructor
    · rintro ⟨h1, h2⟩ y (rfl | hm)
      · exact h1
      · exact h2 y hm
    · intro h
      exact ⟨h x (Or.inl rfl), fun y hy => h y (Or.inr hy)⟩

theorem keysSorted_goFields_iff : ∀ fs : List (String × Json),
    (Json.keysSorted.goFields fs = true ↔
      ∀ kv ∈ fs, Json.keysSorted (Prod.snd kv) = true) := by
  intro fs
  induction fs with
  | nil => simp [Json.keysSorted.goFields]
  | cons f rest ih =>
    obtain ⟨k, v⟩ := f
    simp only [Json.keysSorted.goFields, Bool.and_eq_true, ih, List.mem_cons]
    constructor
    · rintro ⟨h1, h2⟩ y (rfl | hm)
      · exact h1
      · exact h2 y hm
    · intro h
      exact ⟨h (k, v) (Or.inl rfl), fun y hy => h y (Or.inr hy)⟩

theorem keysSorted_sortValue : ∀ v : Json, Json.keysSorted (sortValue v) = true := by
  intro v
  induction v using Json.ind with
  | hnull => rfl
  | hbool b => rfl
  | hnum n => rfl
  | hstr s => rfl
  | harr xs ih =>
    show Json.keysSorted.goList (sortValue.goList xs) = true
    rw [keysSorted_goList_iff, goList_eq_map]
    intro x hx
    obtain ⟨x0, hx0, rfl⟩ := List.mem_map.mp hx
    exact ih x0 hx0
  | hobj fs ih =>
    show (sortedKeysB (sortFields (sortValue.goFields fs)) &&
      Json.keysSorted.goFields (sortFields (sortValue.goFields fs))) = true
    rw [Bool.and_eq_true]
    constructor
    · exact pairwise_sortedKeysB (sortFields_sorted _)
    · rw [keysSorted_goFields_iff]
      intro kv hkv
      have hmem : kv ∈ sortValue.goFields fs :=
        (sortFields_perm _).mem_iff.mp hkv
      rw [goFields_eq_map] at hmem
      obtain ⟨kv0, h0, rfl⟩ := List.mem_map.mp hmem
      exact ih kv0 h0

/-- C5: canonicalization is deterministic - equal values canonicalize to
equal bytes, and permuting the stored key order of any objects (on values
with unique keys, the serde_json invariant) leaves the canonical bytes
unchanged; moreover the normalized form emits every object's keys in
byte-lexicographic sorted order, and the canonical bytes are exactly the
UTF-8 bytes of the compact (whitespace-free) serialization of that
normalized form. -/
theorem c5_canonicalization_determinism :
    (∀ v w : Json, w = v →
      Canonicalizer.canonicalize w = Canonicalizer.canonicalize v) ∧
    (∀ v w : Json, Json.uniq v = true → KeyPerm v w →
      Canonicalizer.canonicalize w = Canonicalizer.canonicalize v) ∧
    (∀ v : Json, Json.keysSorted (sortValue v) = true ∧
      Canonicalizer.canonicalize v =
        utf8Bytes (String.mk (serializeChars (sortValue v)))) := by
  refine ⟨fun v w h => by rw [h], ?_, fun v => ⟨keysSorted_sortValue v, rfl⟩⟩
  intro v w hu hkp
  unfold Canonicalizer.canonicalize Canonicalizer.canonicalize_str
  rw [keyPerm_sortValue v w hu hkp]

/-- C5 witness: swapping the key order of a two-field object leaves the
canonical bytes unchanged. -/
theorem c5_witness :
    Json.uniq (Json.obj [("a", .num 2), ("z", .num 1)]) = true ∧
    Canonicalizer.canonicalize (Json.obj [("z", .num 1), ("a", .num 2)]) =
      Canonicalizer.canonicalize (Json.obj [("a", .num 2), ("z", .num 1)]) := by
  refine ⟨by decide, ?_⟩
  refine c5_canonicalization_determinism.2.1 (Json.obj [("a", .num 2), ("z", .num 1)])
    (Json.obj [("z", .num 1), ("a", .num 2)]) (by decide) ?_
  refine ⟨[("a", Json.num 2), ("z", Json.num 1)], ?_, ?_⟩
  · exact List.Perm.swap ("z", Json.num 1) ("a", Json.num 2) []
  · exact ⟨rfl, rfl, ⟨rfl, rfl, trivial⟩⟩


/-! # The C4 round-trip development (json-patch diff/apply) -/

open JsonPatch

/-! ## Decimal index round-trip: parseIdx inverts natToString. -/

theorem digitVal_digitChar10 {d : Nat} (h : d < 10) :
    digitVal (digitChar10 d) = some d := by
  interval_cases d <;> decide

theorem digitChar10_ne_zero {d : Nat} (h : d < 10) (hd : d ≠ 0) :
    digitChar10 d ≠ '0' := by
  interval_cases d <;> first | exact absurd rfl hd | decide

theorem natDigitsRev_spec : ∀ (fuel n : Nat), n < fuel →
    (natDigitsRev fuel n).foldr (fun d acc => acc * 10 + d) 0 = n ∧
    ∀ d ∈ natDigitsRev fuel n, d < 10 := by
  intro fuel
  induction fuel with
  | zero => intro n h; omega
  | succ fuel ih =>
    intro n h
    by_cases h10 : n < 10
    · refine ⟨?_, ?_⟩
      · simp [natDigitsRev, h10]
      · intro d hd
        simp [natDigitsRev, h10] at hd
        omega
    · have hdiv : n / 10 < fuel := by
        have h1 : n / 10 < n := Nat.div_lt_self (by omega) (by omega)
        omega
      obtain ⟨hval, hdig⟩ := ih (n / 10) hdiv
      refine ⟨?_, ?_⟩
      · simp only [natDigitsRev, if_neg h10, List.foldr_cons, hval]
        omega
      · intro d hd
        simp only [natDigitsRev, if_neg h10, List.mem_cons] at hd
        rcases hd with rfl | hm
        · exact Nat.mod_lt _ (by omega)
        · exact hdig d hm

theorem natDigitsRev_ne_nil {fuel n : Nat} (h : n < fuel) :
    natDigitsRev fuel n ≠ [] := by
  cases fuel with
  | zero => omega
  | succ fuel => by_cases h10 : n < 10 <;> simp [natDigitsRev, h10]

theorem natDigitsRev_getLast_ne_zero : ∀ (fuel n : Nat), 0 < n → n < fuel →
    ∀ d, (natDigitsRev fuel n).getLast? = some d → d ≠ 0 := by
  intro fuel
  induction fuel with
  | zero => intro n h1 h2; omega
  | succ fuel ih =>
    intro n h1 h2 d hd
    by_cases h10 : n < 10
    · simp [natDigitsRev, h10] at hd
      omega
    · have hdiv : n / 10 < fuel := by
        have hx : n / 10 < n := Nat.div_lt_self (by omega) (by omega)
        omega
      have hpos : 0 < n / 10 := Nat.div_pos (by omega) (by omega)
      have hne := natDigitsRev_ne_nil hdiv
      cases hrest : natDigitsRev fuel (n / 10) with
      | nil => exact absurd hrest hne
      | cons r0 rest =>
        apply ih (n / 10) hpos hdiv d
        rw [hrest]
        rw [show natDigitsRev (fuel + 1) n = n % 10 :: natDigitsRev fuel (n / 10) from by
          simp [natDigitsRev, h10], hrest] at hd
        rw [List.getLast?_cons_cons] at hd
        exact hd

theorem parseDigits_map : ∀ (ds : List Nat) (acc : Nat), (∀ d ∈ ds, d < 10) →
    parseDigits (ds.map digitChar10) acc =
      some (ds.foldl (fun a d => a * 10 + d) acc) := by
  intro ds
  induction ds with
  | nil => intro acc h; rfl
  | cons d ds ih =>
    intro acc h
    have hd : d < 10 := h d (List.mem_cons_self _ _)
    simp only [List.map_cons, parseDigits, digitVal_digitChar10 hd, List.foldl_cons]
    exact ih _ (fun x hx => h x (List.mem_cons_of_mem _ hx))

theorem parseIdx_natToString : ∀ n : Nat, parseIdx (natToString n) = some n := by
  intro n
  by_cases h0 : n = 0
  · subst h0; decide
  · have hlt : n < n + 1 := Nat.lt_succ_self n
    obtain ⟨hval, hdig⟩ := natDigitsRev_spec (n + 1) n hlt
    have hne : natDigitsRev (n + 1) n ≠ [] := natDigitsRev_ne_nil hlt
    cases hrev : (natDigitsRev (n + 1) n).reverse with
    | nil => exact absurd (List.reverse_eq_nil_iff.mp hrev) hne
    | cons m ms =>
      have hlast : (natDigitsRev (n + 1) n).getLast? = some m := by
        rw [← List.head?_reverse, hrev]; rfl
      have hm0 : m ≠ 0 :=
        natDigitsRev_getLast_ne_zero (n + 1) n (Nat.pos_of_ne_zero h0) hlt m hlast
      have hmmem : m ∈ natDigitsRev (n + 1) n := by
        rw [← List.mem_reverse, hrev]; exact List.mem_cons_self _ _
      have hm10 : m < 10 := hdig m hmmem
      have hch : digitChar10 m ≠ '0' := digitChar10_ne_zero hm10 hm0
      show parseIdx (String.mk (((natDigitsRev (n + 1) n).reverse).map digitChar10)) = some n
      rw [hrev]
      simp only [List.map_cons, parseIdx, if_neg hch]
      have hall : ∀ d ∈ m :: ms, d < 10 := by
        intro d hd
        exact hdig d (by rw [← List.mem_reverse, hrev]; exact hd)
      have hpd := parseDigits_map (m :: ms) 0 hall
      simp only [List.map_cons] at hpd
      rw [hpd]
      congr 1
      have hfold : (m :: ms).foldl (fun a d => a * 10 + d) 0 =
          (natDigitsRev (n + 1) n).foldr (fun d a => a * 10 + d) 0 := by
        rw [← hrev, List.foldl_reverse]
      rw [hfold, hval]

theorem natToString_ne_dash (n : Nat) : natToString n ≠ "-" := by
  intro h
  have h1 := parseIdx_natToString n
  rw [h] at h1
  have h2 : parseIdx "-" = none := by decide
  rw [h2] at h1
  cases h1

/-! ## Association-list primitives (keys of json objects). -/

theorem hasKey_eq_any : ∀ (fs : List (String × Json)) (k : String),
    hasKey fs k = fs.any (fun q => q.1 == k) := by
  intro fs k
  induction fs with
  | nil => rfl
  | cons q fs ih =>
    obtain ⟨l, w⟩ := q
    by_cases hl : l = k
    · subst hl; simp [hasKey, lookupKey]
    · simp only [hasKey, lookupKey, if_neg hl, List.any_cons]
      rw [← ih]
      simp [hasKey, hl]

theorem lookupKey_eq_none_of_hasKey_false {fs : List (String × Json)} {k : String}
    (h : hasKey fs k = false) : lookupKey fs k = none := by
  unfold hasKey at h
  cases hl : lookupKey fs k with
  | none => rfl
  | some v => rw [hl] at h; cases h

theorem hasKey_false_of_lookupKey_none {fs : List (String × Json)} {k : String}
    (h : lookupKey fs k = none) : hasKey fs k = false := by
  unfold hasKey; rw [h]; rfl

theorem lookupKey_mem : ∀ {fs : List (String × Json)} {k : String} {v : Json},
    lookupKey fs k = some v → (k, v) ∈ fs := by
  intro fs
  induction fs with
  | nil => intro k v h; cases h
  | cons q fs ih =>
    intro k v h
    obtain ⟨l, w⟩ := q
    by_cases hl : l = k
    · subst hl
      simp only [lookupKey, if_pos rfl] at h
      injection h with h
      subst h
      exact List.mem_cons_self _ _
    · simp only [lookupKey, if_neg hl] at h
      exact List.mem_cons_of_mem _ (ih h)

theorem mem_lookupKey_of_distinct : ∀ {fs : List (String × Json)} {k : String} {v : Json},
    distinctKeys fs = true → (k, v) ∈ fs → lookupKey fs k = some v := by
  intro fs
  induction fs with
  | nil => intro k v _ hm; cases hm
  | cons q fs ih =>
    intro k v hd hm
    obtain ⟨l, w⟩ := q
    simp only [distinctKeys, Bool.and_eq_true, Bool.not_eq_true'] at hd
    rcases List.mem_cons.mp hm with heq | hm2
    · injection heq with h1 h2
      subst h1; subst h2
      simp [lookupKey]
    · by_cases hl : l = k
      · subst hl
        have : fs.any (fun q => q.1 == l) = true :=
          List.any_eq_true.mpr ⟨(l, v), hm2, by simp⟩
        rw [this] at hd
        cases hd.1
      · simp only [lookupKey, if_neg hl]
        exact ih hd.2 hm2

theorem lookupKey_replace_same : ∀ {fs : List (String × Json)} {k : String} {c : Json},
    lookupKey fs k = some c → ∀ v, lookupKey (replaceKey fs k v) k = some v := by
  intro fs
  induction fs with
  | nil => intro k c h; cases h
  | cons q fs ih =>
    intro k c h v
    obtain ⟨l, w⟩ := q
    by_cases hl : l = k
    · subst hl; simp [replaceKey, lookupKey]
    · simp only [lookupKey, if_neg hl] at h
      simp only [replaceKey, if_neg hl, lookupKey, if_neg hl]
      exact ih h v

theorem lookupKey_replace_ne : ∀ (fs : List (String × Json)) (k t : String) (v : Json),
    k ≠ t → lookupKey (replaceKey fs t v) k = lookupKey fs k := by
  intro fs
  induction fs with
  | nil => intro k t v _; rfl
  | cons q fs ih =>
    intro k t v hne
    obtain ⟨l, w⟩ := q
    by_cases hl : l = t
    · have hlk : ¬(l = k) := fun he => hne (by rw [← he]; exact hl)
      simp only [replaceKey, if_pos hl, lookupKey, if_neg hlk]
    · simp only [replaceKey, if_neg hl, lookupKey]
      by_cases hk : l = k
      · rw [if_pos hk, if_pos hk]
      · rw [if_neg hk, if_neg hk]
        exact ih k t v hne

theorem replaceKey_lookup_self : ∀ {fs : List (String × Json)} {k : String} {c : Json},
    lookupKey fs k = some c → replaceKey fs k c = fs := by
  intro fs
  induction fs with
  | nil => intro k c h; cases h
  | cons q fs ih =>
    intro k c h
    obtain ⟨l, w⟩ := q
    by_cases hl : l = k
    · subst hl
      simp only [lookupKey, if_pos rfl] at h
      injection h with h
      subst h
      simp [replaceKey]
    · simp only [lookupKey, if_neg hl] at h
      simp only [replaceKey, if_neg hl]
      rw [ih h]

theorem replaceKey_replaceKey : ∀ (fs : List (String × Json)) (k : String) (a b : Json),
    replaceKey (replaceKey fs k a) k b = replaceKey fs k b := by
  intro fs
  induction fs with
  | nil => intro k a b; rfl
  | cons q fs ih =>
    intro k a b
    obtain ⟨l, w⟩ := q
    by_cases hl : l = k
    · subst hl; simp [replaceKey]
    · simp only [replaceKey, if_neg hl]
      rw [ih]

theorem mem_replaceKey : ∀ {fs : List (String × Json)} {k : String} {v : Json} {kv},
    kv ∈ replaceKey fs k v → kv ∈ fs ∨ kv.2 = v := by
  intro fs
  induction fs with
  | nil => intro k v kv h; cases h
  | cons q fs ih =>
    intro k v kv h
    obtain ⟨l, w⟩ := q
    by_cases hl : l = k
    · subst hl
      simp only [replaceKey, if_pos rfl] at h
      rcases List.mem_cons.mp h with rfl | hm
      · exact Or.inr rfl
      · exact Or.inl (List.mem_cons_of_mem _ hm)
    · simp only [replaceKey, if_neg hl] at h
      rcases List.mem_cons.mp h with rfl | hm
      · exact Or.inl (List.mem_cons_self _ _)
      · rcases ih hm with h1 | h2
        · exact Or.inl (List.mem_cons_of_mem _ h1)
        · exact Or.inr h2

theorem any_fst_replaceKey : ∀ (fs : List (String × Json)) (k : String) (v : Json)
    (m : String), (replaceKey fs k v).any (fun q => q.1 == m) =
      fs.any (fun q => q.1 == m) := by
  intro fs
  induction fs with
  | nil => intro k v m; rfl
  | cons q fs ih =>
    intro k v m
    obtain ⟨l, w⟩ := q
    by_cases hl : l = k
    · subst hl; simp [replaceKey]
    · simp only [replaceKey, if_neg hl, List.any_cons]
      rw [ih]

theorem distinctKeys_replaceKey : ∀ {fs : List (String × Json)} (k : String) (v : Json),
    distinctKeys fs = true → distinctKeys (replaceKey fs k v) = true := by
  intro fs
  induction fs with
  | nil => intro k v _; rfl
  | cons q fs ih =>
    intro k v hd
    obtain ⟨l, w⟩ := q
    simp only [distinctKeys, Bool.and_eq_true] at hd
    by_cases hl : l = k
    · subst hl
      simp only [replaceKey, if_pos rfl, distinctKeys, Bool.and_eq_true]
      exact hd
    · simp only [replaceKey, if_neg hl, distinctKeys, Bool.and_eq_true]
      refine ⟨?_, ih k v hd.2⟩
      rw [any_fst_replaceKey]
      exact hd.1

theorem lookupKey_removeKey_ne : ∀ (fs : List (String × Json)) (k t : String),
    k ≠ t → lookupKey (removeKey fs t) k = lookupKey fs k := by
  intro fs
  induction fs with
  | nil => intro k t _; rfl
  | cons q fs ih =>
    intro k t hne
    obtain ⟨l, w⟩ := q
    by_cases hl : l = t
    · have hlk : ¬(l = k) := fun he => hne (by rw [← he]; exact hl)
      simp only [removeKey, if_pos hl, lookupKey, if_neg hlk]
    · simp only [removeKey, if_neg hl, lookupKey]
      by_cases hk : l = k
      · rw [if_pos hk, if_pos hk]
      · rw [if_neg hk, if_neg hk]
        exact ih k t hne

theorem lookupKey_eq_none_of_any_false : ∀ {fs : List (String × Json)} {k : String},
    fs.any (fun q => q.1 == k) = false → lookupKey fs k = none := by
  intro fs
  induction fs with
  | nil => intro k _; rfl
  | cons q fs ih =>
    intro k h
    obtain ⟨l, w⟩ := q
    simp only [List.any_cons, Bool.or_eq_false_iff] at h
    have hl : l ≠ k := by
      intro he
      rw [he] at h
      simp at h
    simp only [lookupKey, if_neg hl]
    exact ih h.2

theorem lookupKey_removeKey_self : ∀ {fs : List (String × Json)} {k : String},
    distinctKeys fs = true → lookupKey (removeKey fs k) k = none := by
  intro fs
  induction fs with
  | nil => intro k _; rfl
  | cons q fs ih =>
    intro k hd
    obtain ⟨l, w⟩ := q
    simp only [distinctKeys, Bool.and_eq_true, Bool.not_eq_true'] at hd
    by_cases hl : l = k
    · subst hl
      simp only [removeKey, if_pos rfl]
      exact lookupKey_eq_none_of_any_false hd.1
    · simp only [removeKey, if_neg hl, lookupKey, if_neg hl]
      exact ih hd.2

theorem mem_removeKey : ∀ {fs : List (String × Json)} {k : String} {kv},
    kv ∈ removeKey fs k → kv ∈ fs := by
  intro fs
  induction fs with
  | nil => intro k kv h; cases h
  | cons q fs ih =>
    intro k kv h
    obtain ⟨l, w⟩ := q
    by_cases hl : l = k
    · subst hl
      simp only [removeKey, if_pos rfl] at h
      exact List.mem_cons_of_mem _ h
    · simp only [removeKey, if_neg hl] at h
      rcases List.mem_cons.mp h with rfl | hm
      · exact List.mem_cons_self _ _
      · exact List.mem_cons_of_mem _ (ih hm)

theorem any_fst_removeKey_false : ∀ {fs : List (String × Json)} (k : String)
    {m : String}, fs.any (fun q => q.1 == m) = false →
    (removeKey fs k).any (fun q => q.1 == m) = false := by
  intro fs
  induction fs with
  | nil => intro k m _; rfl
  | cons q fs ih =>
    intro k m h
    obtain ⟨l, w⟩ := q
    simp only [List.any_cons, Bool.or_eq_false_iff] at h
    by_cases hl : l = k
    · subst hl
      simp only [removeKey, if_pos rfl]
      exact h.2
    · simp only [removeKey, if_neg hl, List.any_cons, Bool.or_eq_false_iff]
      exact ⟨h.1, ih k h.2⟩

theorem distinctKeys_removeKey : ∀ {fs : List (String × Json)} (k : String),
    distinctKeys fs = true → distinctKeys (removeKey fs k) = true := by
  intro fs
  induction fs with
  | nil => intro k _; rfl
  | cons q fs ih =>
    intro k hd
    obtain ⟨l, w⟩ := q
    simp only [distinctKeys, Bool.and_eq_true, Bool.not_eq_true'] at hd
    by_cases hl : l = k
    · subst hl
      simp only [removeKey, if_pos rfl]
      exact hd.2
    · simp only [removeKey, if_neg hl, distinctKeys, Bool.and_eq_true,
        Bool.not_eq_true']
      exact ⟨any_fst_removeKey_false k hd.1, ih k hd.2⟩

theorem lookupKey_append_some : ∀ {A : List (String × Json)} (B : List (String × Json))
    {k : String} {v : Json}, lookupKey A k = some v → lookupKey (A ++ B) k = some v := by
  intro A
  induction A with
  | nil => intro B k v h; cases h
  | cons q A ih =>
    intro B k v h
    obtain ⟨l, w⟩ := q
    by_cases hl : l = k
    · subst hl
      simp only [lookupKey, if_pos rfl] at h
      simp only [List.cons_append, lookupKey, if_pos rfl]
      exact h
    · simp only [lookupKey, if_neg hl] at h
      simp only [List.cons_append, lookupKey, if_neg hl]
      exact ih B h

theorem lookupKey_append_none : ∀ {A : List (String × Json)} (B : List (String × Json))
    {k : String}, lookupKey A k = none → lookupKey (A ++ B) k = lookupKey B k := by
  intro A
  induction A with
  | nil => intro B k _; rfl
  | cons q A ih =>
    intro B k h
    obtain ⟨l, w⟩ := q
    by_cases hl : l = k
    · subst hl
      simp only [lookupKey, if_pos rfl] at h
      cases h
    · simp only [lookupKey, if_neg hl] at h
      simp only [List.cons_append, lookupKey, if_neg hl]
      exact ih B h

theorem any_append_false : ∀ {A B : List (String × Json)}
    {p : (String × Json) → Bool}, A.any p = false → B.any p = false →
    (A ++ B).any p = false := by
  intro A
  induction A with
  | nil => intro B p _ hB; exact hB
  | cons q A ih =>
    intro B p h hB
    simp only [List.any_cons, Bool.or_eq_false_iff] at h
    simp only [List.cons_append, List.any_cons, Bool.or_eq_false_iff]
    exact ⟨h.1, ih h.2 hB⟩

theorem any_append_split : ∀ {A B : List (String × Json)}
    {p : (String × Json) → Bool}, (A ++ B).any p = false →
    A.any p = false ∧ B.any p = false := by
  intro A
  induction A with
  | nil => intro B p h; exact ⟨rfl, h⟩
  | cons q A ih =>
    intro B p h
    simp only [List.cons_append, List.any_cons, Bool.or_eq_false_iff] at h
    obtain ⟨h1, h2⟩ := h
    obtain ⟨h3, h4⟩ := ih h2
    refine ⟨?_, h4⟩
    simp only [List.any_cons, Bool.or_eq_false_iff]
    exact ⟨h1, h3⟩

theorem distinctKeys_append : ∀ {A B : List (String × Json)},
    distinctKeys A = true → distinctKeys B = true →
    (∀ k, hasKey A k = true → hasKey B k = false) →
    distinctKeys (A ++ B) = true := by
  intro A
  induction A with
  | nil => intro B _ hB _; exact hB
  | cons q A ih =>
    intro B hA hB hdisj
    obtain ⟨l, w⟩ := q
    simp only [distinctKeys, Bool.and_eq_true, Bool.not_eq_true'] at hA
    simp only [List.cons_append, distinctKeys, Bool.and_eq_true, Bool.not_eq_true']
    refine ⟨?_, ?_⟩
    · have hl : hasKey B l = false := by
        apply hdisj
        simp [hasKey, lookupKey]
      rw [hasKey_eq_any] at hl
      exact any_append_false hA.1 hl
    · apply ih hA.2 hB
      intro k hk
      apply hdisj
      rw [hasKey_eq_any] at hk ⊢
      simp only [List.any_cons]
      rw [hk]
      simp

theorem lookupKey_map_value : ∀ (fs : List (String × Json)) (f : Json → Json)
    (k : String), lookupKey (fs.map (fun kv => (kv.1, f kv.2))) k =
      (lookupKey fs k).map f := by
  intro fs
  induction fs with
  | nil => intro f k; rfl
  | cons q fs ih =>
    intro f k
    obtain ⟨l, w⟩ := q
    by_cases hl : l = k
    · subst hl; simp [lookupKey]
    · simp only [List.map_cons, lookupKey, if_neg hl]
      exact ih f k

theorem distinctKeys_map_value : ∀ (fs : List (String × Json)) (f : Json → Json),
    distinctKeys (fs.map (fun kv => (kv.1, f kv.2))) = distinctKeys fs := by
  intro fs
  induction fs with
  | nil => intro f; rfl
  | cons q fs ih =>
    intro f
    obtain ⟨l, w⟩ := q
    simp only [List.map_cons, distinctKeys]
    rw [ih, List.any_map]
    rfl

theorem lookupKey_filter_prop : ∀ (fs : List (String × Json)) (p : String → Bool)
    (k : String), lookupKey (fs.filter (fun kv => p kv.1)) k =
      if p k then lookupKey fs k else none := by
  intro fs
  induction fs with
  | nil => intro p k; simp [lookupKey]
  | cons q fs ih =>
    intro p k
    obtain ⟨l, w⟩ := q
    by_cases hpl : p l = true
    · rw [List.filter_cons_of_pos (by simpa using hpl)]
      by_cases hl : l = k
      · subst hl
        simp only [lookupKey, if_pos rfl, hpl]
        rfl
      · simp only [lookupKey, if_neg hl]
        exact ih p k
    · rw [List.filter_cons_of_neg (by simpa using hpl)]
      by_cases hl : l = k
      · subst hl
        rw [ih]
        have hpl2 : p l = false := by
          cases hp : p l
          · rfl
          · exact absurd hp hpl
        rw [hpl2]
        simp
      · simp only [lookupKey, if_neg hl]
        exact ih p k

theorem any_filter_false : ∀ {fs : List (String × Json)}
    (p : (String × Json) → Bool) {q : (String × Json) → Bool},
    fs.any q = false → (fs.filter p).any q = false := by
  intro fs
  induction fs with
  | nil => intro p q _; rfl
  | cons kv fs ih =>
    intro p q h
    simp only [List.any_cons, Bool.or_eq_false_iff] at h
    by_cases hp : p kv = true
    · rw [List.filter_cons_of_pos hp]
      simp only [List.any_cons, Bool.or_eq_false_iff]
      exact ⟨h.1, ih p h.2⟩
    · rw [List.filter_cons_of_neg (by simpa using hp)]
      exact ih p h.2

theorem distinctKeys_filter : ∀ {fs : List (String × Json)}
    (p : (String × Json) → Bool),
    distinctKeys fs = true → distinctKeys (fs.filter p) = true := by
  intro fs
  induction fs with
  | nil => intro p _; rfl
  | cons kv fs ih =>
    intro p hd
    obtain ⟨l, w⟩ := kv
    simp only [distinctKeys, Bool.and_eq_true, Bool.not_eq_true'] at hd
    by_cases hp : p (l, w) = true
    · rw [List.filter_cons_of_pos hp]
      simp only [distinctKeys, Bool.and_eq_true, Bool.not_eq_true']
      exact ⟨any_filter_false p hd.1, ih p hd.2⟩
    · rw [List.filter_cons_of_neg (by simpa using hp)]
      exact ih p hd.2

/-! ## Extensionality: nodup-keyed association lists with identical lookup
functions are permutations of each other. -/

theorem lookupKey_some_split : ∀ {B : List (String × Json)} {k : String} {v : Json},
    lookupKey B k = some v →
    ∃ B1 B2, B = B1 ++ (k, v) :: B2 ∧ ∀ q ∈ B1, q.1 ≠ k := by
  intro B
  induction B with
  | nil => intro k v h; cases h
  | cons q B ih =>
    intro k v h
    obtain ⟨l, w⟩ := q
    by_cases hl : l = k
    · subst hl
      simp only [lookupKey, if_pos rfl] at h
      injection h with h
      subst h
      exact ⟨[], B, rfl, by intro q hq; cases hq⟩
    · simp only [lookupKey, if_neg hl] at h
      obtain ⟨B1, B2, rfl, hB1⟩ := ih h
      refine ⟨(l, w) :: B1, B2, rfl, ?_⟩
      intro q hq
      rcases List.mem_cons.mp hq with rfl | hm
      · exact hl
      · exact hB1 q hm

theorem distinctKeys_remove_middle : ∀ (B1 : List (String × Json)) (k : String)
    (v : Json) (B2 : List (String × Json)),
    distinctKeys (B1 ++ (k, v) :: B2) = true → distinctKeys (B1 ++ B2) = true := by
  intro B1
  induction B1 with
  | nil =>
    intro k v B2 h
    simp only [List.nil_append, distinctKeys, Bool.and_eq_true] at h
    exact h.2
  | cons q B1 ih =>
    intro k v B2 h
    obtain ⟨l1, w1⟩ := q
    simp only [List.cons_append, distinctKeys, Bool.and_eq_true,
      Bool.not_eq_true'] at h ⊢
    obtain ⟨hs1, hs2⟩ := any_append_split h.1
    simp only [List.any_cons, Bool.or_eq_false_iff] at hs2
    exact ⟨any_append_false hs1 hs2.2, ih k v B2 h.2⟩

theorem lookupKey_middle_tail_none : ∀ (B1 : List (String × Json)) (k : String)
    (v : Json) (B2 : List (String × Json)),
    distinctKeys (B1 ++ (k, v) :: B2) = true → lookupKey B2 k = none := by
  intro B1
  induction B1 with
  | nil =>
    intro k v B2 h
    simp only [List.nil_append, distinctKeys, Bool.and_eq_true,
      Bool.not_eq_true'] at h
    exact lookupKey_eq_none_of_any_false h.1
  | cons q B1 ih =>
    intro k v B2 h
    obtain ⟨l1, w1⟩ := q
    simp only [List.cons_append, distinctKeys, Bool.and_eq_true] at h
    exact ih k v B2 h.2

theorem assoc_ext_perm : ∀ {A B : List (String × Json)},
    distinctKeys A = true → distinctKeys B = true →
    (∀ k, lookupKey A k = lookupKey B k) → A.Perm B := by
  intro A
  induction A with
  | nil =>
    intro B _ _ h
    cases B with
    | nil => exact List.Perm.refl _
    | cons q B =>
      obtain ⟨l, w⟩ := q
      have h1 := h l
      simp [lookupKey] at h1
  | cons q A ih =>
    intro B hA hB h
    obtain ⟨k, v⟩ := q
    have hkB : lookupKey B k = some v := by
      rw [← h k]; simp [lookupKey]
    obtain ⟨B1, B2, rfl, hB1⟩ := lookupKey_some_split hkB
    simp only [distinctKeys, Bool.and_eq_true, Bool.not_eq_true'] at hA
    have hB1n : lookupKey B1 k = none := by
      apply lookupKey_eq_none_of_any_false
      rw [List.any_eq_false]
      intro q hq
      simpa using hB1 q hq
    have hperm : A.Perm (B1 ++ B2) := by
      apply ih hA.2 (distinctKeys_remove_middle B1 k v B2 hB)
      intro k2
      by_cases hk2 : k2 = k
      · subst hk2
        have hA1 : lookupKey A k2 = none := lookupKey_eq_none_of_any_false hA.1
        rw [hA1, lookupKey_append_none _ hB1n,
          lookupKey_middle_tail_none B1 k2 v B2 hB]
      · have h2 := h k2
        have hk2n : ¬(k = k2) := fun he => hk2 he.symm
        simp only [lookupKey, if_neg hk2n] at h2
        rw [h2]
        cases hb1 : lookupKey B1 k2 with
        | some w2 =>
          rw [lookupKey_append_some _ hb1, lookupKey_append_some _ hb1]
        | none =>
          rw [lookupKey_append_none _ hb1, lookupKey_append_none _ hb1]
          simp only [lookupKey, if_neg hk2n]
    exact (List.Perm.cons (k, v) hperm).trans List.perm_middle.symm

/-! ## Positional list primitives (json arrays). -/

theorem length_listSetAt : ∀ (xs : List Json) (i : Nat) (v : Json),
    (listSetAt xs i v).length = xs.length := by
  intro xs
  induction xs with
  | nil => intro i v; rfl
  | cons x xs ih =>
    intro i v
    cases i with
    | zero => rfl
    | succ i => simp [listSetAt, ih]

theorem get?_listSetAt_self : ∀ {xs : List Json} {i : Nat} (v : Json),
    i < xs.length → (listSetAt xs i v).get? i = some v := by
  intro xs
  induction xs with
  | nil => intro i v h; cases h
  | cons x xs ih =>
    intro i v h
    cases i with
    | zero => rfl
    | succ i =>
      show (x :: listSetAt xs i v).get? (i + 1) = some v
      rw [List.get?_cons_succ]
      exact ih v (by simpa using h)

theorem listSetAt_get_self : ∀ {xs : List Json} {i : Nat} {c : Json},
    xs.get? i = some c → listSetAt xs i c = xs := by
  intro xs
  induction xs with
  | nil => intro i c h; cases h
  | cons x xs ih =>
    intro i c h
    cases i with
    | zero =>
      simp only [List.get?_cons_zero] at h
      injection h with h
      subst h
      rfl
    | succ i =>
      simp only [List.get?_cons_succ] at h
      simp only [listSetAt]
      rw [ih h]

theorem listSetAt_listSetAt : ∀ (xs : List Json) (i : Nat) (a b : Json),
    listSetAt (listSetAt xs i a) i b = listSetAt xs i b := by
  intro xs
  induction xs with
  | nil => intro i a b; rfl
  | cons x xs ih =>
    intro i a b
    cases i with
    | zero => rfl
    | succ i => simp [listSetAt, ih]

theorem get?_append_length : ∀ (done : List Json) (x : Json) (rest : List Json),
    (done ++ x :: rest).get? done.length = some x := by
  intro done
  induction done with
  | nil => intro x rest; rfl
  | cons d done ih => intro x rest; simpa using ih x rest

theorem listSetAt_append_length : ∀ (done : List Json) (x : Json) (rest : List Json)
    (v : Json), listSetAt (done ++ x :: rest) done.length v = done ++ v :: rest := by
  intro done
  induction done with
  | nil => intro x rest v; rfl
  | cons d done ih =>
    intro x rest v
    show d :: listSetAt (done ++ x :: rest) done.length v = d :: (done ++ v :: rest)
    rw [ih]

theorem listInsertAt_length : ∀ (xs : List Json) (v : Json),
    listInsertAt xs xs.length v = xs ++ [v] := by
  intro xs
  induction xs with
  | nil => intro v; rfl
  | cons x xs ih =>
    intro v
    simp only [List.length_cons, listInsertAt, List.cons_append]
    rw [ih]

theorem listRemoveAt_append_length : ∀ (ys : List Json) (x : Json) (rest : List Json),
    listRemoveAt (ys ++ x :: rest) ys.length = ys ++ rest := by
  intro ys
  induction ys with
  | nil => intro x rest; rfl
  | cons y ys ih =>
    intro x rest
    show y :: listRemoveAt (ys ++ x :: rest) ys.length = y :: (ys ++ rest)
    rw [ih]

/-! ## Path algebra for getPath / setPathT / editAt. -/

theorem getPath_append : ∀ (p q : Path) (doc : Json),
    getPath doc (p ++ q) = (getPath doc p).bind (fun c => getPath c q) := by
  intro p
  induction p with
  | nil => intro q doc; rfl
  | cons t rest ih =>
    intro q doc
    show getPath doc (t :: (rest ++ q)) = _
    simp only [getPath]
    cases hc : childAt doc t with
    | none => rfl
    | some c => exact ih q c

theorem editAt_spec (f : Json → Except String Json) :
    ∀ (p : Path) (doc sub : Json), getPath doc p = some sub →
    editAt f doc p = (f sub).map (fun s2 => setPathT doc p s2) := by
  intro p
  induction p with
  | nil =>
    intro doc sub h
    injection h with h
    rw [← h]
    show f doc = Except.map (fun s2 => setPathT doc [] s2) (f doc)
    cases f doc <;> rfl
  | cons t rest ih =>
    intro doc sub h
    cases doc with
    | null => simp [getPath, childAt] at h
    | bool b => simp [getPath, childAt] at h
    | num n => simp [getPath, childAt] at h
    | str s => simp [getPath, childAt] at h
    | obj fs =>
      cases hl : lookupKey fs t with
      | none => simp [getPath, childAt, hl] at h
      | some c =>
        simp only [getPath, childAt, hl] at h
        simp only [editAt, setPathT, hl]
        rw [ih c sub h]
        cases f sub <;> rfl
    | arr xs =>
      cases hp : parseIdx t with
      | none => simp [getPath, childAt, hp] at h
      | some i =>
        cases hg : xs.get? i with
        | none => simp only [getPath, childAt, hp, hg] at h; cases h
        | some c =>
          simp only [getPath, childAt, hp, hg] at h
          simp only [editAt, setPathT, hp, hg]
          rw [ih c sub h]
          cases f sub <;> rfl

theorem getPath_setPathT_same : ∀ (p : Path) (doc sub : Json),
    getPath doc p = some sub → ∀ v, getPath (setPathT doc p v) p = some v := by
  intro p
  induction p with
  | nil => intro doc sub _ v; rfl
  | cons t rest ih =>
    intro doc sub h v
    cases doc with
    | null => simp [getPath, childAt] at h
    | bool b => simp [getPath, childAt] at h
    | num n => simp [getPath, childAt] at h
    | str s => simp [getPath, childAt] at h
    | obj fs =>
      cases hl : lookupKey fs t with
      | none => simp [getPath, childAt, hl] at h
      | some c =>
        simp only [getPath, childAt, hl] at h
        simp only [setPathT, hl]
        simp only [getPath, childAt]
        rw [lookupKey_replace_same hl (setPathT c rest v)]
        exact ih c sub h v
    | arr xs =>
      cases hp : parseIdx t with
      | none => simp [getPath, childAt, hp] at h
      | some i =>
        cases hg : xs.get? i with
        | none => simp only [getPath, childAt, hp, hg] at h; cases h
        | some c =>
          simp only [getPath, childAt, hp, hg] at h
          have hi : i < xs.length := by
            rcases Nat.lt_or_ge i xs.length with h1 | h2
            · exact h1
            · rw [List.get?_eq_none.mpr h2] at hg; cases hg
          simp only [setPathT, hp, hg]
          simp only [getPath, childAt, hp]
          rw [get?_listSetAt_self (setPathT c rest v) hi]
          exact ih c sub h v

theorem setPathT_get_self : ∀ (p : Path) (doc sub : Json),
    getPath doc p = some sub → setPathT doc p sub = doc := by
  intro p
  induction p with
  | nil =>
    intro doc sub h
    injection h with h
    rw [← h]
    rfl
  | cons t rest ih =>
    intro doc sub h
    cases doc with
    | null => simp [getPath, childAt] at h
    | bool b => simp [getPath, childAt] at h
    | num n => simp [getPath, childAt] at h
    | str s => simp [getPath, childAt] at h
    | obj fs =>
      cases hl : lookupKey fs t with
      | none => simp [getPath, childAt, hl] at h
      | some c =>
        simp only [getPath, childAt, hl] at h
        simp only [setPathT, hl]
        rw [ih c sub h, replaceKey_lookup_self hl]
    | arr xs =>
      cases hp : parseIdx t with
      | none => simp [getPath, childAt, hp] at h
      | some i =>
        cases hg : xs.get? i with
        | none => simp only [getPath, childAt, hp, hg] at h; cases h
        | some c =>
          simp only [getPath, childAt, hp, hg] at h
          simp only [setPathT, hp, hg]
          rw [ih c sub h, listSetAt_get_self hg]

theorem setPathT_setPathT : ∀ (p : Path) (doc sub : Json),
    getPath doc p = some sub → ∀ a b,
    setPathT (setPathT doc p a) p b = setPathT doc p b := by
  intro p
  induction p with
  | nil => intro doc sub _ a b; rfl
  | cons t rest ih =>
    intro doc sub h a b
    cases doc with
    | null => simp [getPath, childAt] at h
    | bool b2 => simp [getPath, childAt] at h
    | num n => simp [getPath, childAt] at h
    | str s => simp [getPath, childAt] at h
    | obj fs =>
      cases hl : lookupKey fs t with
      | none => simp [getPath, childAt, hl] at h
      | some c =>
        simp only [getPath, childAt, hl] at h
        have h1 : lookupKey (replaceKey fs t (setPathT c rest a)) t =
            some (setPathT c rest a) := lookupKey_replace_same hl _
        simp only [setPathT, hl, h1]
        rw [replaceKey_replaceKey, ih c sub h a b]
    | arr xs =>
      cases hp : parseIdx t with
      | none => simp [getPath, childAt, hp] at h
      | some i =>
        cases hg : xs.get? i with
        | none => simp only [getPath, childAt, hp, hg] at h; cases h
        | some c =>
          simp only [getPath, childAt, hp, hg] at h
          have hi : i < xs.length := by
            rcases Nat.lt_or_ge i xs.length with h1 | h2
            · exact h1
            · rw [List.get?_eq_none.mpr h2] at hg; cases hg
          have h1 : (listSetAt xs i (setPathT c rest a)).get? i =
              some (setPathT c rest a) := get?_listSetAt_self _ hi
          simp only [setPathT, hp, hg, h1]
          rw [listSetAt_listSetAt, ih c sub h a b]

theorem setPathT_append : ∀ (p q : Path) (doc sub : Json),
    getPath doc p = some sub → ∀ v,
    setPathT doc (p ++ q) v = setPathT doc p (setPathT sub q v) := by
  intro p
  induction p with
  | nil =>
    intro q doc sub h v
    injection h with h
    rw [← h]
    rfl
  | cons t rest ih =>
    intro q doc sub h v
    cases doc with
    | null => simp [getPath, childAt] at h
    | bool b => simp [getPath, childAt] at h
    | num n => simp [getPath, childAt] at h
    | str s => simp [getPath, childAt] at h
    | obj fs =>
      cases hl : lookupKey fs t with
      | none => simp [getPath, childAt, hl] at h
      | some c =>
        simp only [getPath, childAt, hl] at h
        simp only [List.cons_append, setPathT, hl]
        exact congrArg (fun z => Json.obj (replaceKey fs t z)) (ih q c sub h v)
    | arr xs =>
      cases hp : parseIdx t with
      | none => simp [getPath, childAt, hp] at h
      | some i =>
        cases hg : xs.get? i with
        | none => simp only [getPath, childAt, hp, hg] at h; cases h
        | some c =>
          simp only [getPath, childAt, hp, hg] at h
          simp only [List.cons_append, setPathT, hp, hg]
          exact congrArg (fun z => Json.arr (listSetAt xs i z)) (ih q c sub h v)

/-! ## Patch application building blocks. -/

theorem patch_cons (doc : Json) (op : PatchOp) (ops : List PatchOp) :
    patch doc (op :: ops) = match applyOp doc op with
      | .ok d => patch d ops
      | .error e => .error e := by
  show List.foldlM applyOp doc (op :: ops) = _
  rw [List.foldlM_cons]
  cases applyOp doc op <;> rfl

theorem patch_append (doc : Json) (ops1 ops2 : List PatchOp) :
    patch doc (ops1 ++ ops2) = match patch doc ops1 with
      | .ok d => patch d ops2
      | .error e => .error e := by
  induction ops1 generalizing doc with
  | nil => rfl
  | cons op ops1 ih =>
    show patch doc (op :: (ops1 ++ ops2)) = _
    rw [patch_cons, patch_cons]
    cases applyOp doc op with
    | error e => rfl
    | ok d => exact ih d

theorem applyOp_replace {doc sub : Json} {p : Path} (h : getPath doc p = some sub)
    (v : Json) : applyOp doc (.replace p v) = .ok (setPathT doc p v) := by
  show editAt (fun _ => .ok v) doc p = _
  rw [editAt_spec _ p doc sub h]
  rfl

theorem splitLast_append : ∀ (p : Path) (t : String),
    splitLast (p ++ [t]) = some (p, t) := by
  intro p t
  induction p with
  | nil => rfl
  | cons x rest ih =>
    cases rest with
    | nil => rfl
    | cons y rest2 =>
      show (splitLast ((y :: rest2) ++ [t])).map (fun pr => (x :: pr.1, pr.2)) = _
      rw [ih]
      rfl

theorem applyOp_add_at {doc parent parent2 : Json} {p : Path} {t : String} {v : Json}
    (h : getPath doc p = some parent) (ha : addChild t v parent = .ok parent2) :
    applyOp doc (.add (p ++ [t]) v) = .ok (setPathT doc p parent2) := by
  simp only [applyOp, splitLast_append]
  rw [editAt_spec _ p doc parent h, ha]
  rfl

theorem applyOp_remove_at {doc parent parent2 : Json} {p : Path} {t : String}
    (h : getPath doc p = some parent) (hr : removeChild t parent = .ok parent2) :
    applyOp doc (.remove (p ++ [t])) = .ok (setPathT doc p parent2) := by
  simp only [applyOp, splitLast_append]
  rw [editAt_spec _ p doc parent h, hr]
  rfl

/-! ## The three tail phases of the array diff. -/

theorem removeTail_apply : ∀ (k : Nat) (extra : List Json), extra.length = k →
    ∀ (p : Path) (doc : Json) (xs : List Json),
    getPath doc p = some (.arr (xs ++ extra)) →
    patch doc (removeTail p xs.length k) = .ok (setPathT doc p (.arr xs)) := by
  intro k
  induction k with
  | zero =>
    intro extra hlen p doc xs h
    have hx : extra = [] := List.eq_nil_of_length_eq_zero hlen
    subst hx
    rw [List.append_nil] at h
    show Except.ok doc = _
    rw [setPathT_get_self p doc _ h]
  | succ k ih =>
    intro extra hlen p doc xs h
    obtain ⟨front, a, rfl⟩ : ∃ front a, extra = front ++ [a] := by
      cases hre : extra.reverse with
      | nil =>
        rw [List.reverse_eq_nil_iff] at hre
        subst hre
        simp at hlen
      | cons a fr =>
        refine ⟨fr.reverse, a, ?_⟩
        rw [← List.reverse_reverse extra, hre, List.reverse_cons]
    have hfl : front.length = k := by
      rw [List.length_append, List.length_singleton] at hlen
      omega
    show patch doc
      (.remove (p ++ [natToString (xs.length + k)]) :: removeTail p xs.length k) = _
    have hrc : removeChild (natToString (xs.length + k)) (.arr (xs ++ (front ++ [a]))) =
        .ok (.arr (xs ++ front)) := by
      have h1 : xs ++ (front ++ [a]) = (xs ++ front) ++ a :: [] := by
        rw [List.append_assoc]
      have h2 : xs.length + k = (xs ++ front).length := by
        rw [List.length_append, hfl]
      rw [h1]
      simp only [removeChild, parseIdx_natToString]
      rw [if_pos (by simp [List.length_append]; omega)]
      rw [h2, listRemoveAt_append_length, List.append_nil]
    rw [patch_cons, applyOp_remove_at h hrc]
    show patch (setPathT doc p (.arr (xs ++ front))) (removeTail p xs.length k) = _
    have h2 : getPath (setPathT doc p (.arr (xs ++ front))) p =
        some (.arr (xs ++ front)) := getPath_setPathT_same p doc _ h _
    rw [ih front hfl p _ xs h2, setPathT_setPathT p doc _ h]

theorem addTail_apply : ∀ (vs : List Json) (p : Path) (doc : Json) (xs : List Json),
    getPath doc p = some (.arr xs) →
    patch doc (addTail p xs.length vs) = .ok (setPathT doc p (.arr (xs ++ vs))) := by
  intro vs
  induction vs with
  | nil =>
    intro p doc xs h
    rw [List.append_nil]
    show Except.ok doc = _
    rw [setPathT_get_self p doc _ h]
  | cons v vs ih =>
    intro p doc xs h
    show patch doc
      (.add (p ++ [natToString xs.length]) v :: addTail p (xs.length + 1) vs) = _
    have hac : addChild (natToString xs.length) v (.arr xs) =
        .ok (.arr (xs ++ [v])) := by
      simp only [addChild, if_neg (natToString_ne_dash xs.length), parseIdx_natToString,
        if_pos (le_refl xs.length), listInsertAt_length]
    rw [patch_cons, applyOp_add_at h hac]
    show patch (setPathT doc p (.arr (xs ++ [v]))) (addTail p (xs.length + 1) vs) = _
    have h2 : getPath (setPathT doc p (.arr (xs ++ [v]))) p =
        some (.arr (xs ++ [v])) := getPath_setPathT_same p doc _ h _
    have h3 := ih p _ (xs ++ [v]) h2
    rw [show (xs ++ [v]).length = xs.length + 1 from by simp] at h3
    rw [h3, setPathT_setPathT p doc _ h, List.append_assoc, List.singleton_append]

/-! ## The right-only additions of the object diff. -/

theorem addNew_apply : ∀ (adds : List (String × Json)) (p : Path) (doc : Json)
    (cur : List (String × Json)),
    getPath doc p = some (.obj cur) →
    (∀ kv ∈ adds, hasKey cur kv.1 = false) →
    distinctKeys adds = true →
    patch doc (adds.map (fun kv => .add (p ++ [kv.1]) kv.2)) =
      .ok (setPathT doc p (.obj (cur ++ adds))) := by
  intro adds
  induction adds with
  | nil =>
    intro p doc cur h _ _
    rw [List.append_nil]
    show Except.ok doc = _
    rw [setPathT_get_self p doc _ h]
  | cons kv adds ih =>
    obtain ⟨k, v⟩ := kv
    intro p doc cur h hno hd
    rw [List.map_cons, patch_cons]
    have hkc : hasKey cur k = false := hno (k, v) (List.mem_cons_self _ _)
    have hac : addChild k v (.obj cur) = .ok (.obj (cur ++ [(k, v)])) := by
      have hnot : ¬(hasKey cur k = true) := by rw [hkc]; simp
      simp only [addChild, insertKeyMap, if_neg hnot]
    rw [applyOp_add_at h hac]
    show patch (setPathT doc p (.obj (cur ++ [(k, v)])))
      (adds.map (fun kv => PatchOp.add (p ++ [kv.1]) kv.2)) = _
    have h2 : getPath (setPathT doc p (.obj (cur ++ [(k, v)]))) p =
        some (.obj (cur ++ [(k, v)])) := getPath_setPathT_same p doc _ h _
    simp only [distinctKeys, Bool.and_eq_true, Bool.not_eq_true'] at hd
    have hno2 : ∀ kv2 ∈ adds, hasKey (cur ++ [(k, v)]) kv2.1 = false := by
      intro kv2 hm
      rw [hasKey_eq_any]
      apply any_append_false
      · rw [← hasKey_eq_any]; exact hno kv2 (List.mem_cons_of_mem _ hm)
      · simp only [List.any_cons, List.any_nil, Bool.or_false]
        have hne : kv2.1 ≠ k := by
          intro he
          have hx : adds.any (fun q => q.1 == k) = true :=
            List.any_eq_true.mpr ⟨kv2, hm, by simp [he]⟩
          rw [hd.1] at hx
          cases hx
        rw [beq_eq_false_iff_ne]
        exact fun he => hne he.symm
    have h3 := ih p _ (cur ++ [(k, v)]) h2 hno2 hd.2
    rw [h3, setPathT_setPathT p doc _ h, List.append_assoc, List.singleton_append]

/-! ## The diff round-trip. -/

theorem patch_append_ok {doc d2 : Json} {ops1 ops2 : List PatchOp}
    (h : patch doc ops1 = .ok d2) :
    patch doc (ops1 ++ ops2) = patch d2 ops2 := by
  rw [patch_append, h]

theorem forall2_map_sortValue : ∀ {A B : List Json},
    List.Forall₂ (fun a b => sortValue a = sortValue b ∧ Json.uniq a = true) A B →
    A.map sortValue = B.map sortValue := by
  intro A B h
  induction h with
  | nil => rfl
  | cons h1 h2 ih => simp [List.map_cons, h1.1, ih]

theorem forall2_uniq : ∀ {A B : List Json},
    List.Forall₂ (fun a b => sortValue a = sortValue b ∧ Json.uniq a = true) A B →
    ∀ x ∈ A, Json.uniq x = true := by
  intro A B h
  induction h with
  | nil => intro x hx; cases hx
  | cons h1 h2 ih =>
    intro x hx
    rcases List.mem_cons.mp hx with rfl | hm
    · exact h1.2
    · exact ih x hm

theorem diff_apply_base {l r doc : Json} {p : Path}
    (hget : getPath doc p = some l) (hur : Json.uniq r = true)
    (heqn : diffImpl l r p = if l = r then [] else [.replace p r]) :
    ∃ r2, sortValue r2 = sortValue r ∧ Json.uniq r2 = true ∧
      patch doc (diffImpl l r p) = .ok (setPathT doc p r2) := by
  refine ⟨r, rfl, hur, ?_⟩
  rw [heqn]
  by_cases he : l = r
  · rw [if_pos he]
    show Except.ok doc = _
    rw [← he, setPathT_get_self p doc l hget]
  · rw [if_neg he]
    rw [patch_cons, applyOp_replace hget r]
    rfl

theorem diff_apply_at : ∀ (N : Nat) (l : Json), l.size ≤ N →
    ∀ (r : Json) (p : Path) (doc : Json),
    Json.uniq l = true → Json.uniq r = true →
    getPath doc p = some l →
    ∃ r2 : Json, sortValue r2 = sortValue r ∧ Json.uniq r2 = true ∧
      patch doc (diffImpl l r p) = .ok (setPathT doc p r2) := by
  intro N
  induction N with
  | zero =>
    intro l hl
    have := Json.size_pos l
    omega
  | succ N ih =>
    intro l hl r p doc hul hur hget
    cases l with
    | null => cases r <;> exact diff_apply_base hget hur rfl
    | bool b => cases r <;> exact diff_apply_base hget hur rfl
    | num n => cases r <;> exact diff_apply_base hget hur rfl
    | str s => cases r <;> exact diff_apply_base hget hur rfl
    | arr ls =>
      cases r with
      | null => exact diff_apply_base hget hur rfl
      | bool b => exact diff_apply_base hget hur rfl
      | num n => exact diff_apply_base hget hur rfl
      | str s => exact diff_apply_base hget hur rfl
      | obj rf => exact diff_apply_base hget hur rfl
      | arr rs =>
        have hsls : ∀ x ∈ ls, Json.size x ≤ N ∧ Json.uniq x = true := by
          intro x hx
          refine ⟨?_, (uniq_goList_iff ls).mp hul x hx⟩
          have h8 := Json.size_lt_of_mem_arr hx
          simp only [Json.size] at hl h8
          omega
        have hurs : ∀ x ∈ rs, Json.uniq x = true := (uniq_goList_iff rs).mp hur
        have goArrSpec : ∀ (lrem : List Json),
            (∀ x ∈ lrem, Json.size x ≤ N ∧ Json.uniq x = true) →
            ∀ (rrem : List Json), (∀ x ∈ rrem, Json.uniq x = true) →
            ∀ (done : List Json) (doc2 : Json),
            getPath doc2 p = some (.arr (done ++ lrem)) →
            ∃ upd : List Json,
              List.Forall₂ (fun a b => sortValue a = sortValue b ∧ Json.uniq a = true)
                upd (rrem.take lrem.length) ∧
              patch doc2 (diffImpl.goArr lrem rrem p done.length) =
                .ok (setPathT doc2 p
                  (.arr (done ++ (upd ++ lrem.drop rrem.length)))) := by
          intro lrem
          induction lrem with
          | nil =>
            intro _ rrem _ done doc2 hg2
            rw [List.append_nil] at hg2
            refine ⟨[], by simp, ?_⟩
            show Except.ok doc2 = _
            have h9 : done ++ (([] : List Json) ++
                List.drop rrem.length ([] : List Json)) = done := by simp
            rw [h9, setPathT_get_self p doc2 _ hg2]
          | cons lv ls2 ihl =>
            intro hmem rrem hmemr done doc2 hg2
            cases rrem with
            | nil =>
              refine ⟨[], by simp, ?_⟩
              show Except.ok doc2 = _
              have h9 : done ++ (([] : List Json) ++
                  List.drop (List.length ([] : List Json)) (lv :: ls2)) =
                  done ++ (lv :: ls2) := by simp
              rw [h9, setPathT_get_self p doc2 _ hg2]
            | cons rv rs2 =>
              have hgl : getPath doc2 (p ++ [natToString done.length]) = some lv := by
                rw [getPath_append, hg2]
                show getPath (Json.arr (done ++ lv :: ls2)) [natToString done.length] =
                  some lv
                simp only [getPath, childAt, parseIdx_natToString, get?_append_length]
              obtain ⟨hsz, hulv⟩ := hmem lv (List.mem_cons_self _ _)
              have hurv : Json.uniq rv = true := hmemr rv (List.mem_cons_self _ _)
              obtain ⟨r2v, hsv, hu2v, hpv⟩ :=
                ih lv hsz rv (p ++ [natToString done.length]) doc2 hulv hurv hgl
              have hset : setPathT doc2 (p ++ [natToString done.length]) r2v =
                  setPathT doc2 p (.arr (done ++ r2v :: ls2)) := by
                rw [setPathT_append p [natToString done.length] doc2 _ hg2]
                congr 1
                show setPathT (Json.arr (done ++ lv :: ls2)) [natToString done.length]
                  r2v = _
                simp only [setPathT, parseIdx_natToString, get?_append_length,
                  listSetAt_append_length]
              rw [hset] at hpv
              have hg3 : getPath (setPathT doc2 p (.arr (done ++ r2v :: ls2))) p =
                  some (.arr ((done ++ [r2v]) ++ ls2)) := by
                rw [List.append_assoc, List.singleton_append]
                exact getPath_setPathT_same p doc2 _ hg2 _
              obtain ⟨upd2, hf2, hp2⟩ :=
                ihl (fun x hx => hmem x (List.mem_cons_of_mem _ hx)) rs2
                  (fun x hx => hmemr x (List.mem_cons_of_mem _ hx))
                  (done ++ [r2v]) _ hg3
              have hlen2 : (done ++ [r2v]).length = done.length + 1 := by simp
              rw [hlen2] at hp2
              refine ⟨r2v :: upd2, ?_, ?_⟩
              · have h9 : (rv :: rs2).take (lv :: ls2).length =
                    rv :: rs2.take ls2.length := by
                  simp
                rw [h9]
                exact List.Forall₂.cons ⟨hsv, hu2v⟩ hf2
              · show patch doc2 (diffImpl lv rv (p ++ [natToString done.length]) ++
                    diffImpl.goArr ls2 rs2 p (done.length + 1)) = _
                rw [patch_append_ok hpv, hp2, setPathT_setPathT p doc2 _ hg2]
                have h9 : (done ++ [r2v]) ++ (upd2 ++ ls2.drop rs2.length) =
                    done ++ ((r2v :: upd2) ++ (lv :: ls2).drop (rv :: rs2).length) := by
                  simp
                rw [h9]
        obtain ⟨upd, hfa, hpa⟩ := goArrSpec ls hsls rs hurs [] doc hget
        have hpa0 : patch doc (diffImpl.goArr ls rs p 0) =
            .ok (setPathT doc p (.arr (upd ++ ls.drop rs.length))) := hpa
        have hlupd : upd.length = min ls.length rs.length := by
          have h9 := List.Forall₂.length_eq hfa
          rw [h9, List.length_take]
        have hg4 : getPath (setPathT doc p (.arr (upd ++ ls.drop rs.length))) p =
            some (.arr (upd ++ ls.drop rs.length)) :=
          getPath_setPathT_same p doc _ hget _
        have hremove := removeTail_apply (ls.length - min ls.length rs.length)
          (ls.drop rs.length) (by rw [List.length_drop]; omega) p _ upd hg4
        rw [hlupd, setPathT_setPathT p doc _ hget] at hremove
        have hg5 : getPath (setPathT doc p (.arr upd)) p = some (.arr upd) :=
          getPath_setPathT_same p doc _ hget _
        have hadd := addTail_apply (rs.drop (min ls.length rs.length)) p _ upd hg5
        rw [hlupd, setPathT_setPathT p doc _ hget] at hadd
        have htake : rs.take ls.length = rs.take (min ls.length rs.length) := by
          rcases Nat.le_total ls.length rs.length with h1 | h1
          · rw [Nat.min_eq_left h1]
          · rw [Nat.min_eq_right h1, List.take_of_length_le h1, List.take_length]
        refine ⟨.arr (upd ++ rs.drop (min ls.length rs.length)), ?_, ?_, ?_⟩
        · show Json.arr (sortValue.goList (upd ++ rs.drop (min ls.length rs.length))) =
            Json.arr (sortValue.goList rs)
          rw [goList_eq_map, goList_eq_map, List.map_append,
            forall2_map_sortValue hfa, htake, ← List.map_append, List.take_append_drop]
        · show Json.uniq.goList (upd ++ rs.drop (min ls.length rs.length)) = true
          rw [uniq_goList_iff]
          intro x hx
          rcases List.mem_append.mp hx with h1 | h2
          · exact forall2_uniq hfa x h1
          · exact hurs x (List.mem_of_mem_drop h2)
        · show patch doc ((diffImpl.goArr ls rs p 0 ++
              removeTail p (min ls.length rs.length)
                (ls.length - min ls.length rs.length)) ++
              addTail p (min ls.length rs.length)
                (rs.drop (min ls.length rs.length))) = _
          have hAB : patch doc (diffImpl.goArr ls rs p 0 ++
              removeTail p (min ls.length rs.length)
                (ls.length - min ls.length rs.length)) =
              .ok (setPathT doc p (.arr upd)) := by
            rw [patch_append_ok hpa0]
            exact hremove
          rw [patch_append_ok hAB]
          exact hadd
    | obj lf =>
      cases r with
      | null => exact diff_apply_base hget hur rfl
      | bool b => exact diff_apply_base hget hur rfl
      | num n => exact diff_apply_base hget hur rfl
      | str s => exact diff_apply_base hget hur rfl
      | arr rs => exact diff_apply_base hget hur rfl
      | obj rf =>
        have hul2 : (distinctKeys lf && Json.uniq.goFields lf) = true := hul
        have hur2 : (distinctKeys rf && Json.uniq.goFields rf) = true := hur
        simp only [Bool.and_eq_true] at hul2 hur2
        have hdlf : distinctKeys lf = true := hul2.1
        have hulf : ∀ kv ∈ lf, Json.uniq (Prod.snd kv) = true :=
          (uniq_goFields_iff lf).mp hul2.2
        have hdrf : distinctKeys rf = true := hur2.1
        have hurf : ∀ kv ∈ rf, Json.uniq (Prod.snd kv) = true :=
          (uniq_goFields_iff rf).mp hur2.2
        have hslf : ∀ kv ∈ lf, Json.size (Prod.snd kv) ≤ N := by
          intro kv hkv
          have h8 := Json.size_lt_of_mem_obj hkv
          simp only [Json.size] at hl h8
          omega
        have goObjSpec : ∀ (lfr : List (String × Json)),
            (∀ kv ∈ lfr, Json.size (Prod.snd kv) ≤ N ∧
              Json.uniq (Prod.snd kv) = true) →
            distinctKeys lfr = true →
            ∀ (cur : List (String × Json)) (doc2 : Json),
            getPath doc2 p = some (.obj cur) →
            distinctKeys cur = true →
            (∀ kv ∈ cur, Json.uniq (Prod.snd kv) = true) →
            (∀ kv ∈ lfr, lookupKey cur kv.1 = some kv.2) →
            ∃ cur2 : List (String × Json),
              distinctKeys cur2 = true ∧
              (∀ kv ∈ cur2, Json.uniq (Prod.snd kv) = true) ∧
              (∀ k2, hasKey lfr k2 = false →
                lookupKey cur2 k2 = lookupKey cur k2) ∧
              (∀ kv ∈ lfr,
                (lookupKey rf kv.1 = none ∧ lookupKey cur2 kv.1 = none) ∨
                (∃ rv r2, lookupKey rf kv.1 = some rv ∧
                  lookupKey cur2 kv.1 = some r2 ∧
                  sortValue r2 = sortValue rv ∧ Json.uniq r2 = true)) ∧
              patch doc2 (diffImpl.goObj lfr rf p) =
                .ok (setPathT doc2 p (.obj cur2)) := by
          intro lfr
          induction lfr with
          | nil =>
            intro _ _ cur doc2 hg2 hdc huc _
            refine ⟨cur, hdc, huc, fun k2 _ => rfl,
              fun kv hkv => absurd hkv (List.not_mem_nil kv), ?_⟩
            show Except.ok doc2 = _
            rw [setPathT_get_self p doc2 _ hg2]
          | cons kv0 lfr2 ihl =>
            obtain ⟨k, lv⟩ := kv0
            intro hmem hdl cur doc2 hg2 hdc huc hlook
            have hlk : lookupKey cur k = some lv := hlook (k, lv) (List.mem_cons_self _ _)
            simp only [distinctKeys, Bool.and_eq_true, Bool.not_eq_true'] at hdl
            cases hrv : lookupKey rf k with
            | some rv =>
              obtain ⟨hsz, hulv⟩ := hmem (k, lv) (List.mem_cons_self _ _)
              have hurv : Json.uniq rv = true := hurf (k, rv) (lookupKey_mem hrv)
              have hgl : getPath doc2 (p ++ [k]) = some lv := by
                rw [getPath_append, hg2]
                show getPath (Json.obj cur) [k] = some lv
                simp only [getPath, childAt, hlk]
              obtain ⟨r2v, hsv, hu2v, hpv⟩ :=
                ih lv hsz rv (p ++ [k]) doc2 hulv hurv hgl
              have hset : setPathT doc2 (p ++ [k]) r2v =
                  setPathT doc2 p (.obj (replaceKey cur k r2v)) := by
                rw [setPathT_append p [k] doc2 _ hg2]
                congr 1
                show setPathT (Json.obj cur) [k] r2v = _
                simp only [setPathT, hlk]
              rw [hset] at hpv
              have hg3 : getPath (setPathT doc2 p (.obj (replaceKey cur k r2v))) p =
                  some (.obj (replaceKey cur k r2v)) :=
                getPath_setPathT_same p doc2 _ hg2 _
              have hdc2 : distinctKeys (replaceKey cur k r2v) = true :=
                distinctKeys_replaceKey k r2v hdc
              have huc2 : ∀ kv ∈ replaceKey cur k r2v,
                  Json.uniq (Prod.snd kv) = true := by
                intro kv hkv
                rcases mem_replaceKey hkv with h1 | h2
                · exact huc kv h1
                · rw [h2]; exact hu2v
              have hlook2 : ∀ kv ∈ lfr2,
                  lookupKey (replaceKey cur k r2v) kv.1 = some kv.2 := by
                intro kv hkv
                have hne : kv.1 ≠ k := by
                  intro he
                  have hx : lfr2.any (fun q => q.1 == k) = true :=
                    List.any_eq_true.mpr ⟨kv, hkv, by simp [he]⟩
                  rw [hdl.1] at hx
                  cases hx
                rw [lookupKey_replace_ne _ _ _ _ hne]
                exact hlook kv (List.mem_cons_of_mem _ hkv)
              obtain ⟨cur2, hd2, hu2, hunch, hspec, hp2⟩ :=
                ihl (fun kv hkv => hmem kv (List.mem_cons_of_mem _ hkv)) hdl.2
                  (replaceKey cur k r2v) _ hg3 hdc2 huc2 hlook2
              refine ⟨cur2, hd2, hu2, ?_, ?_, ?_⟩
              · intro k2 hk2
                rw [hasKey_eq_any] at hk2
                simp only [List.any_cons, Bool.or_eq_false_iff] at hk2
                have hne : k2 ≠ k := by
                  have h9 : (k == k2) = false := hk2.1
                  intro he
                  rw [he] at h9
                  simp at h9
                rw [hunch k2 (by rw [hasKey_eq_any]; exact hk2.2)]
                exact lookupKey_replace_ne _ _ _ _ hne
              · intro kv hkv
                rcases List.mem_cons.mp hkv with rfl | hm
                · right
                  refine ⟨rv, r2v, hrv, ?_, hsv, hu2v⟩
                  have hk2f : hasKey lfr2 (k, lv).1 = false := by
                    rw [hasKey_eq_any]; exact hdl.1
                  rw [hunch _ hk2f]
                  exact lookupKey_replace_same hlk r2v
                · exact hspec kv hm
              · have hsh : diffImpl.goObj ((k, lv) :: lfr2) rf p =
                    diffImpl lv rv (p ++ [k]) ++ diffImpl.goObj lfr2 rf p := by
                  simp only [diffImpl.goObj, hrv]
                rw [hsh, patch_append_ok hpv, hp2, setPathT_setPathT p doc2 _ hg2]
            | none =>
              have hhk : hasKey cur k = true := by unfold hasKey; rw [hlk]; rfl
              have hrc : removeChild k (.obj cur) = .ok (.obj (removeKey cur k)) := by
                simp [removeChild, hhk]
              have hp1 : patch doc2 [PatchOp.remove (p ++ [k])] =
                  .ok (setPathT doc2 p (.obj (removeKey cur k))) := by
                rw [patch_cons, applyOp_remove_at hg2 hrc]
                rfl
              have hg3 : getPath (setPathT doc2 p (.obj (removeKey cur k))) p =
                  some (.obj (removeKey cur k)) :=
                getPath_setPathT_same p doc2 _ hg2 _
              have hdc2 : distinctKeys (removeKey cur k) = true :=
                distinctKeys_removeKey k hdc
              have huc2 : ∀ kv ∈ removeKey cur k, Json.uniq (Prod.snd kv) = true :=
                fun kv hkv => huc kv (mem_removeKey hkv)
              have hlook2 : ∀ kv ∈ lfr2,
                  lookupKey (removeKey cur k) kv.1 = some kv.2 := by
                intro kv hkv
                have hne : kv.1 ≠ k := by
                  intro he
                  have hx : lfr2.any (fun q => q.1 == k) = true :=
                    List.any_eq_true.mpr ⟨kv, hkv, by simp [he]⟩
                  rw [hdl.1] at hx
                  cases hx
                rw [lookupKey_removeKey_ne _ _ _ hne]
                exact hlook kv (List.mem_cons_of_mem _ hkv)
              obtain ⟨cur2, hd2, hu2, hunch, hspec, hp2⟩ :=
                ihl (fun kv hkv => hmem kv (List.mem_cons_of_mem _ hkv)) hdl.2
                  (removeKey cur k) _ hg3 hdc2 huc2 hlook2
              refine ⟨cur2, hd2, hu2, ?_, ?_, ?_⟩
              · intro k2 hk2
                rw [hasKey_eq_any] at hk2
                simp only [List.any_cons, Bool.or_eq_false_iff] at hk2
                have hne : k2 ≠ k := by
                  have h9 : (k == k2) = false := hk2.1
                  intro he
                  rw [he] at h9
                  simp at h9
                rw [hunch k2 (by rw [hasKey_eq_any]; exact hk2.2)]
                exact lookupKey_removeKey_ne _ _ _ hne
              · intro kv hkv
                rcases List.mem_cons.mp hkv with rfl | hm
                · left
                  refine ⟨hrv, ?_⟩
                  have hk2f : hasKey lfr2 (k, lv).1 = false := by
                    rw [hasKey_eq_any]; exact hdl.1
                  rw [hunch _ hk2f]
                  exact lookupKey_removeKey_self hdc
                · exact hspec kv hm
              · have hsh : diffImpl.goObj ((k, lv) :: lfr2) rf p =
                    [PatchOp.remove (p ++ [k])] ++ diffImpl.goObj lfr2 rf p := by
                  simp only [diffImpl.goObj, hrv]
                rw [hsh, patch_append_ok hp1, hp2, setPathT_setPathT p doc2 _ hg2]
        obtain ⟨cur2, hd2, hu2, hunch, hspec, hpo⟩ :=
          goObjSpec lf (fun kv hkv => ⟨hslf kv hkv, hulf kv hkv⟩) hdlf lf doc hget
            hdlf hulf (fun kv hkv => mem_lookupKey_of_distinct hdlf hkv)
        have hdadds : distinctKeys (rf.filter (fun kv2 => !(hasKey lf kv2.1))) = true :=
          distinctKeys_filter _ hdrf
        have hlkadds : ∀ k2, lookupKey (rf.filter (fun kv2 => !(hasKey lf kv2.1))) k2 =
            if !(hasKey lf k2) then lookupKey rf k2 else none :=
          fun k2 => lookupKey_filter_prop rf (fun x => !(hasKey lf x)) k2
        have hnoadds : ∀ kv ∈ rf.filter (fun kv2 => !(hasKey lf kv2.1)),
            hasKey cur2 kv.1 = false := by
          intro kv hkv
          obtain ⟨hmem2, hpred⟩ := List.mem_filter.mp hkv
          have hlf : hasKey lf kv.1 = false := by simpa using hpred
          apply hasKey_false_of_lookupKey_none
          rw [hunch kv.1 hlf]
          exact lookupKey_eq_none_of_hasKey_false hlf
        have hg6 : getPath (setPathT doc p (.obj cur2)) p = some (.obj cur2) :=
          getPath_setPathT_same p doc _ hget _
        have hadd := addNew_apply (rf.filter (fun kv2 => !(hasKey lf kv2.1))) p _ cur2
          hg6 hnoadds hdadds
        rw [setPathT_setPathT p doc _ hget] at hadd
        have hlookF : ∀ k2,
            (lookupKey (cur2 ++ rf.filter (fun kv2 => !(hasKey lf kv2.1))) k2).map
              sortValue = (lookupKey rf k2).map sortValue := by
          intro k2
          by_cases hklf : hasKey lf k2 = true
          · obtain ⟨lv2, hlv2⟩ : ∃ lv2, lookupKey lf k2 = some lv2 := by
              unfold hasKey at hklf
              cases hx : lookupKey lf k2 with
              | none => rw [hx] at hklf; cases hklf
              | some lv2 => exact ⟨lv2, rfl⟩
            have hmem2 : (k2, lv2) ∈ lf := lookupKey_mem hlv2
            have h9 : lookupKey (rf.filter (fun kv2 => !(hasKey lf kv2.1))) k2 =
                none := by
              rw [hlkadds k2, hklf]
              rfl
            rcases hspec (k2, lv2) hmem2 with ⟨hrfn, hc2n⟩ | ⟨rv, r2, hrfv, hc2v, hsv2, _⟩
            · rw [lookupKey_append_none _ hc2n, h9, hrfn]
            · rw [lookupKey_append_some _ hc2v, hrfv]
              simp [hsv2]
          · have hklf2 : hasKey lf k2 = false := by
              cases hx : hasKey lf k2
              · rfl
              · exact absurd hx hklf
            have hc2 : lookupKey cur2 k2 = none := by
              rw [hunch k2 hklf2]
              exact lookupKey_eq_none_of_hasKey_false hklf2
            rw [lookupKey_append_none _ hc2]
            have h9 : lookupKey (rf.filter (fun kv2 => !(hasKey lf kv2.1))) k2 =
                lookupKey rf k2 := by
              rw [hlkadds k2, hklf2]
              rfl
            rw [h9]
        have hdisjF : ∀ k2, hasKey cur2 k2 = true →
            hasKey (rf.filter (fun kv2 => !(hasKey lf kv2.1))) k2 = false := by
          intro k2 hk2
          by_cases hklf : hasKey lf k2 = true
          · apply hasKey_false_of_lookupKey_none
            rw [hlkadds k2, hklf]
            rfl
          · have hklf2 : hasKey lf k2 = false := by
              cases hx : hasKey lf k2
              · rfl
              · exact absurd hx hklf
            have hc2 : lookupKey cur2 k2 = none := by
              rw [hunch k2 hklf2]
              exact lookupKey_eq_none_of_hasKey_false hklf2
            unfold hasKey at hk2
            rw [hc2] at hk2
            cases hk2
        have hdF : distinctKeys (cur2 ++ rf.filter (fun kv2 => !(hasKey lf kv2.1))) =
            true := distinctKeys_append hd2 hdadds hdisjF
        have hpermF : ((cur2 ++ rf.filter (fun kv2 => !(hasKey lf kv2.1))).map
            (fun kv => (kv.1, sortValue kv.2))).Perm
            (rf.map (fun kv => (kv.1, sortValue kv.2))) := by
          apply assoc_ext_perm
          · rw [distinctKeys_map_value]; exact hdF
          · rw [distinctKeys_map_value]; exact hdrf
          · intro k2
            rw [lookupKey_map_value, lookupKey_map_value]
            exact hlookF k2
        refine ⟨.obj (cur2 ++ rf.filter (fun kv2 => !(hasKey lf kv2.1))), ?_, ?_, ?_⟩
        · show Json.obj (sortFields (sortValue.goFields
              (cur2 ++ rf.filter (fun kv2 => !(hasKey lf kv2.1))))) =
            Json.obj (sortFields (sortValue.goFields rf))
          rw [goFields_eq_map, goFields_eq_map]
          congr 1
          apply sortFields_eq_of_perm hpermF
          exact distinctKeys_pairwise.mp (by rw [distinctKeys_map_value]; exact hdF)
        · show (distinctKeys (cur2 ++ rf.filter (fun kv2 => !(hasKey lf kv2.1))) &&
            Json.uniq.goFields (cur2 ++ rf.filter (fun kv2 => !(hasKey lf kv2.1)))) =
            true
          rw [Bool.and_eq_true]
          refine ⟨hdF, ?_⟩
          rw [uniq_goFields_iff]
          intro kv hkv
          rcases List.mem_append.mp hkv with h1 | h2
          · exact hu2 kv h1
          · exact hurf kv (List.mem_filter.mp h2).1
        · show patch doc (diffImpl.goObj lf rf p ++ addNew rf lf p) = _
          rw [patch_append_ok hpo]
          exact hadd

/-- C4: patch round-trip - for every pair of JSON values prev and current
(carrying the serde_json object invariant of unique keys, which every
serde_json::Value satisfies by construction), apply_delta of prev with the
operations returned by compute_delta(prev, current) succeeds, and the
result's canonical bytes equal the canonical bytes of current. -/
theorem c4_patch_round_trip (prev current : Json)
    (hup : Json.uniq prev = true) (huc : Json.uniq current = true) :
    ∃ result : Json,
      DeltaEngine.apply_delta prev (DeltaEngine.compute_delta prev current) =
        .ok result ∧
      Canonicalizer.canonicalize result = Canonicalizer.canonicalize current := by
  obtain ⟨r2, hsv, hu2, hp⟩ :=
    diff_apply_at prev.size prev (le_refl _) current [] prev hup huc rfl
  refine ⟨r2, ?_, ?_⟩
  · show (match JsonPatch.patch prev (JsonPatch.diffImpl prev current []) with
      | .ok st => Except.ok st
      | .error e => Except.error (BmsError.deltaCompression e)) = Except.ok r2
    rw [hp]
    rfl
  · show utf8Bytes (String.mk (serializeChars (sortValue r2))) = _
    rw [hsv]
    rfl

/-- C4 witness: a concrete round-trip through an object with nested array
and added, removed and replaced members. -/
theorem c4_witness :
    Json.uniq (Json.obj [("a", .num 1), ("x", .arr [.num 1, .num 2])]) = true ∧
    Json.uniq (Json.obj [("x", .arr [.num 9]), ("b", .str "s")]) = true ∧
    ∃ result : Json,
      DeltaEngine.apply_delta (Json.obj [("a", .num 1), ("x", .arr [.num 1, .num 2])])
        (DeltaEngine.compute_delta
          (Json.obj [("a", .num 1), ("x", .arr [.num 1, .num 2])])
          (Json.obj [("x", .arr [.num 9]), ("b", .str "s")])) = .ok result ∧
      Canonicalizer.canonicalize result =
        Canonicalizer.canonicalize (Json.obj [("x", .arr [.num 9]), ("b", .str "s")]) :=
  ⟨by decide, by decide, c4_patch_round_trip _ _ (by decide) (by decide)⟩

end BMS
